import Mathlib

/-!
# Verification of the DuplicateDeducer duplicate-detection engine

Shallow embedding of `src/modules/duplicate_finder.py` and
`src/modules/file_manager.py`.

Strings (paths, directory names, file names) are modelled as their sequences
of Unicode code points, `List Nat`: Python compares strings lexicographically
by code point, and `str.lower()` maps code points pointwise (modelled for the
ASCII range).

The filesystem is modelled as a list of `FSFile` records: each record carries
the file's absolute path, its parent directory (the value `os.path.dirname`
returns for the path), the file name, the byte size reported by
`os.path.getsize`, the byte content, the modification time, and four booleans
recording whether the corresponding OS calls succeed (`sizeOk` for
`os.path.getsize`, `quickOk` for opening/reading the leading window,
`mtimeOk` for `os.path.getmtime`, `fullOk` for streaming the whole content).

The xxhash64 digest is modelled as an arbitrary function
`X : List Nat → Nat` of the hashed bytes: the quick hash is `X` applied to
the first 4096 content bytes, the full hash is `X` applied to the whole
content (the Python code feeds the file to the hasher in chunks, which
hashes the concatenation, i.e. the whole content).  All theorems are
universally quantified over `X`.

The persistent hash cache (`hash_cache` in the Python class, a dict
`path ↦ (mtime, hash)`) is an association list threaded through the scan.
-/

namespace DupDeducer

/-- A Python string as its list of code points. -/
abbrev PStr := List Nat

/-- `str.lower()` restricted to the ASCII range (code points 65–90 map to
97–122, everything else is unchanged). -/
def pyLower (s : PStr) : PStr :=
  s.map (fun c => if 65 ≤ c ∧ c ≤ 90 then c + 32 else c)

/-- Python string `<`: strict lexicographic comparison by code point. -/
def lexLt : PStr → PStr → Bool
  | [], [] => false
  | [], _ :: _ => true
  | _ :: _, [] => false
  | a :: s, b :: t => if a < b then true else if b < a then false else lexLt s t

/-- `str.endswith(suffix)`. -/
def endsWithL (s suffix : PStr) : Bool :=
  suffix.isSuffixOf s

/-- The bytes-per-sample window of `calculate_quick_hash` (`sample_size=4096`). -/
def sampleSize : Nat := 4096

/-- A file as seen by the scanner, together with the outcome of the OS calls
made on it. -/
structure FSFile where
  path : PStr
  dir : PStr
  name : PStr
  size : Nat
  content : List Nat
  mtime : Nat
  sizeOk : Bool
  quickOk : Bool
  mtimeOk : Bool
  fullOk : Bool
deriving DecidableEq, Repr

/-- The hash cache: an association list from path to (mtime, full hash),
mirroring the pickled `hash_cache` dict. -/
abbrev Cache := List (PStr × Nat × Nat)

/-- Dict lookup `hash_cache[file_path]`. -/
def lookupC : Cache → PStr → Option (Nat × Nat)
  | [], _ => none
  | (p, m, h) :: t, q => if p = q then some (m, h) else lookupC t q

/-- Dict assignment `hash_cache[file_path] = (mod_time, file_hash)`:
replaces an existing binding in place, otherwise appends. -/
def storeC : Cache → PStr → Nat × Nat → Cache
  | [], q, v => [(q, v)]
  | (p, m, h) :: t, q, v =>
    if p = q then (q, v) :: t else (p, m, h) :: storeC t q v

/-- `DuplicateFinder.calculate_quick_hash`: hash of the first `sample_size`
bytes; `None` when the read raises. -/
def calculate_quick_hash (X : List Nat → Nat) (f : FSFile) : Option Nat :=
  if f.quickOk then some (X (f.content.take sampleSize)) else none

/-- `DuplicateFinder.calculate_full_hash`: `None` when `os.path.getmtime`
raises; a cache hit (entry present with exactly the current mtime) returns
the cached hash without touching the content; otherwise the whole content is
hashed and the result stored under the current mtime, `None` (with no store)
when the content read raises. -/
def calculate_full_hash (X : List Nat → Nat) (c : Cache) (f : FSFile) :
    Option Nat × Cache :=
  if f.mtimeOk then
    match lookupC c f.path with
    | some (m, h) =>
      if m = f.mtime then (some h, c)
      else if f.fullOk then
        (some (X f.content), storeC c f.path (f.mtime, X f.content))
      else (none, c)
    | none =>
      if f.fullOk then
        (some (X f.content), storeC c f.path (f.mtime, X f.content))
      else (none, c)
  else (none, c)

/-- The filter applied inside `group_files_by_size`: optional extension
suffix match, `os.path.getsize` success, and the minimum-size threshold
(`if self.min_size and size < self.min_size: continue` — a zero threshold
disables the check). -/
def passesFilters (ext : Option PStr) (minSize : Nat) (f : FSFile) : Bool :=
  (match ext with
   | some e => endsWithL f.name e
   | none => true)
  && f.sizeOk
  && (decide (minSize = 0) || decide (minSize ≤ f.size))

/-- `size_dict.setdefault(size, []).append(file_path)` over an association
list in insertion order. -/
def addToGroup : List (Nat × List FSFile) → FSFile → List (Nat × List FSFile)
  | [], f => [(f.size, [f])]
  | (s, fs) :: t, f =>
    if s = f.size then (s, fs ++ [f]) :: t else (s, fs) :: addToGroup t f

/-- `DuplicateFinder.group_files_by_size`: walk order is the order of the
`walk` list; files failing the filters are skipped. -/
def group_files_by_size (ext : Option PStr) (minSize : Nat)
    (walk : List FSFile) : List (Nat × List FSFile) :=
  walk.foldl (fun d f => if passesFilters ext minSize f then addToGroup d f else d) []

/-- `quick_groups.setdefault(quick_hash, []).append(file_path)`. -/
def addQuick : List (Nat × List FSFile) → Nat → FSFile → List (Nat × List FSFile)
  | [], q, f => [(q, [f])]
  | (k, fs) :: t, q, f =>
    if k = q then (k, fs ++ [f]) :: t else (k, fs) :: addQuick t q f

/-- The quick-hash bucketing loop of `find_duplicates`, parameterised by the
quick-hash oracle (files whose quick hash fails are dropped). -/
def quickGroupsR (Q : FSFile → Option Nat) (files : List FSFile) :
    List (Nat × List FSFile) :=
  files.foldl
    (fun d f =>
      match Q f with
      | none => d
      | some q => addQuick d q f) []

/-- `full_hashes` lookup (dict keyed by the full-hash value). -/
def lookupA : List (Nat × FSFile) → Nat → Option FSFile
  | [], _ => none
  | (k, a) :: t, h => if k = h then some a else lookupA t h

/-- `full_hashes[full_hash] = file`. -/
def storeA : List (Nat × FSFile) → Nat → FSFile → List (Nat × FSFile)
  | [], h, a => [(h, a)]
  | (k, b) :: t, h, a =>
    if k = h then (h, a) :: t else (k, b) :: storeA t h a

/-- The duplicate/original decision shared by both scanners: if the new
file's parent directory (lowercased) sorts strictly before the anchor's, the
new file becomes the original and replaces the anchor, otherwise the anchor
stays the original.  Returns `((duplicate, original), new anchor)` — the
Python code appends `(duplicate, original)`. -/
def anchorCompare (f a : FSFile) : (FSFile × FSFile) × FSFile :=
  if lexLt (pyLower f.dir) (pyLower a.dir) then ((a, f), f) else ((f, a), a)

/-- The inner loop of `find_duplicates` over one quick-hash group: each
file's full hash is computed (threading the cache); files whose full hash
fails are skipped (`if not full_hash: continue`); a file whose full hash is
already in `full_hashes` yields a duplicate pair via `anchorCompare`. -/
def scanFullList (X : List Nat → Nat) :
    List FSFile → Cache → List (Nat × FSFile) → List (FSFile × FSFile) × Cache
  | [], c, _ => ([], c)
  | f :: t, c, fh =>
    match calculate_full_hash X c f with
    | (none, c1) => scanFullList X t c1 fh
    | (some h, c1) =>
      match lookupA fh h with
      | some a =>
        let r := anchorCompare f a
        let rest := scanFullList X t c1 (storeA fh h r.2)
        (r.1 :: rest.1, rest.2)
      | none => scanFullList X t c1 (storeA fh h f)

/-- The loop of `find_duplicates` over the quick-hash groups of one size
group: groups with fewer than two files are skipped. -/
def scanQuickGroups (X : List Nat → Nat) :
    List (Nat × List FSFile) → Cache → List (FSFile × FSFile) × Cache
  | [], c => ([], c)
  | (_, fl) :: t, c =>
    if fl.length < 2 then scanQuickGroups X t c
    else
      let r1 := scanFullList X fl c []
      let r2 := scanQuickGroups X t r1.2
      (r1.1 ++ r2.1, r2.2)

/-- The loop of `find_duplicates` over the size groups: groups with fewer
than two files are skipped; otherwise the group is bucketed by quick hash
and scanned. -/
def scanSizeGroups (X : List Nat → Nat) :
    List (Nat × List FSFile) → Cache → List (FSFile × FSFile) × Cache
  | [], c => ([], c)
  | (_, files) :: t, c =>
    if files.length < 2 then scanSizeGroups X t c
    else
      let r1 := scanQuickGroups X (quickGroupsR (calculate_quick_hash X) files) c
      let r2 := scanSizeGroups X t r1.2
      (r1.1 ++ r2.1, r2.2)

/-- `DuplicateFinder.find_duplicates`: returns the `(duplicate, original)`
pairs (as file records; the code stores the two paths) and the hash cache as
saved by the trailing `save_hash_cache()`. -/
def find_duplicates (X : List Nat → Nat) (ext : Option PStr) (minSize : Nat)
    (walk : List FSFile) (c0 : Cache) : List (FSFile × FSFile) × Cache :=
  scanSizeGroups X (group_files_by_size ext minSize walk) c0

/-! ## The streaming scanner `find_duplicates_stream` -/

/-- A lazily-hashed anchor record `{"path": ..., "full": ...}` held in
`quick_groups_stream`. -/
structure Anchor where
  file : FSFile
  full : Option Nat
deriving DecidableEq, Repr

/-- `quick_groups_stream` (a `defaultdict(list)` keyed by quick hash). -/
abbrev Buckets := List (Nat × List Anchor)

/-- Bucket read `quick_groups_stream[quick_hash]` (default empty). -/
def lookupB : Buckets → Nat → List Anchor
  | [], _ => []
  | (k, ans) :: t, q => if k = q then ans else lookupB t q

/-- Bucket write-back (the Python list is mutated in place; absent keys are
created by the defaultdict access). -/
def storeB : Buckets → Nat → List Anchor → Buckets
  | [], q, ans => [(q, ans)]
  | (k, bs) :: t, q, ans =>
    if k = q then (q, ans) :: t else (k, bs) :: storeB t q ans

/-- One event of the stream.  `step f found n` is the per-candidate
"Scanning Hashes" yield after processing file `f` (`found` is the duplicate
pair reported in that yield, if any; `n` is the processed-file count);
`flushEv c` records a `save_hash_cache()` call persisting cache `c`. -/
inductive SEvent where
  | initEv (totalCandidates : Nat)
  | scanStart
  | step (f : FSFile) (found : Option (FSFile × FSFile)) (processed : Nat)
  | stopped (processed : Nat)
  | flushEv (c : Cache)
  | finalize (totalDuplicates : Nat)
deriving DecidableEq, Repr

/-- Mutable state of the streaming loop. -/
structure StState where
  cache : Cache
  buckets : Buckets
  processed : Nat
  dups : Nat
deriving DecidableEq, Repr

/-- The `for candidate in quick_groups_stream[quick_hash]` loop: each
anchor's full hash is computed lazily if still unset (and the outcome —
including a failed `None` — written back), the current file's full hash is
recomputed for each anchor, and the first anchor whose stored full-hash
value equals the current one (Python `==`, so two `None`s also match) yields
a pair via `anchorCompare` and stops the loop, replacing the anchor's file
when the new file wins. -/
def streamMatch (X : List Nat → Nat) :
    List Anchor → Cache → FSFile →
    List Anchor × Option (FSFile × FSFile) × Cache
  | [], c, _ => ([], none, c)
  | a :: t, c, f =>
    let fill : Option Nat × Cache :=
      match a.full with
      | some h => (some h, c)
      | none => calculate_full_hash X c a.file
    let cur := calculate_full_hash X fill.2 f
    if cur.1 = fill.1 then
      let r := anchorCompare f a.file
      (⟨r.2, fill.1⟩ :: t, some r.1, cur.2)
    else
      let rest := streamMatch X t cur.2 f
      (⟨a.file, fill.1⟩ :: rest.1, rest.2.1, rest.2.2)

/-- Processing of one candidate file inside the streaming loop: a failed
quick hash yields one progress event and leaves the buckets untouched;
otherwise the file's bucket is searched via `streamMatch`, the file is
appended as a fresh unhashed anchor when no match was found, and the cache
is checkpointed every 50 processed files. -/
def streamStep (X : List Nat → Nat) (st : StState) (f : FSFile) :
    List SEvent × StState :=
  match calculate_quick_hash X f with
  | none =>
    ([SEvent.step f none (st.processed + 1)],
     { st with processed := st.processed + 1 })
  | some q =>
    let r := streamMatch X (lookupB st.buckets q) st.cache f
    let ans :=
      match r.2.1 with
      | some _ => r.1
      | none => r.1 ++ [⟨f, none⟩]
    let st' : StState :=
      { cache := r.2.2
        buckets := storeB st.buckets q ans
        processed := st.processed + 1
        dups := st.dups + (if (r.2.1).isSome then 1 else 0) }
    if st'.processed % 50 = 0 then
      ([SEvent.step f r.2.1 st'.processed, SEvent.flushEv st'.cache], st')
    else
      ([SEvent.step f r.2.1 st'.processed], st')

/-- The candidate loop of `find_duplicates_stream`: the stop predicate is
polled once per candidate (it sees the processed-file count); a positive
poll yields the `Stopped` event and flushes the cache; after the last
candidate the `Finalization` event is yielded and the cache flushed. -/
def streamLoop (X : List Nat → Nat) (stop : Nat → Bool) :
    List FSFile → StState → List SEvent × StState
  | [], st => ([SEvent.finalize st.dups, SEvent.flushEv st.cache], st)
  | f :: t, st =>
    if stop st.processed then
      ([SEvent.stopped st.processed, SEvent.flushEv st.cache], st)
    else
      let p := streamStep X st f
      let r := streamLoop X stop t p.2
      (p.1 ++ r.1, r.2)

/-- The stop-free candidate fold (used to describe prefixes of the loop). -/
def stepsFold (X : List Nat → Nat) :
    List FSFile → StState → List SEvent × StState
  | [], st => ([], st)
  | f :: t, st =>
    let p := streamStep X st f
    let r := stepsFold X t p.2
    (p.1 ++ r.1, r.2)

/-- Step 1 of `find_duplicates_stream`: every size group with at least two
files contributes its files, in group order, to the candidate list. -/
def candidateFiles (ext : Option PStr) (minSize : Nat)
    (walk : List FSFile) : List FSFile :=
  (group_files_by_size ext minSize walk).foldl
    (fun acc sfs => if sfs.2.length > 1 then acc ++ sfs.2 else acc) []

/-- `DuplicateFinder.find_duplicates_stream`: the full event trace and the
final in-memory state. -/
def find_duplicates_stream (X : List Nat → Nat) (ext : Option PStr)
    (minSize : Nat) (walk : List FSFile) (c0 : Cache) (stop : Nat → Bool) :
    List SEvent × StState :=
  let cands := candidateFiles ext minSize walk
  let r := streamLoop X stop cands ⟨c0, [], 0, 0⟩
  (SEvent.initEv cands.length :: SEvent.scanStart :: r.1, r.2)

/-- The duplicate pairs reported by a stream trace. -/
def streamPairs (evs : List SEvent) : List (FSFile × FSFile) :=
  evs.filterMap
    (fun e =>
      match e with
      | SEvent.step _ found _ => found
      | _ => none)

/-! ## The action executor `file_manager.py` -/

/-- The filesystem as `delete_duplicates` sees it: path ↦ (size, whether
`os.remove` would succeed).  An absent path makes `os.path.getsize` raise. -/
abbrev DelEnv := List (PStr × Nat × Bool)

/-- `os.path.getsize` in the delete environment. -/
def getSizeE : DelEnv → PStr → Option (Nat × Bool)
  | [], _ => none
  | (p, v) :: t, q => if p = q then some v else getSizeE t q

/-- `os.remove`: the path disappears from the environment. -/
def removeE : DelEnv → PStr → DelEnv
  | [], _ => []
  | (p, v) :: t, q => if p = q then removeE t q else (p, v) :: removeE t q

/-- Result dict of `FileManager.delete_duplicates`. -/
structure DelResult where
  deleted_count : Nat
  simulated_deleted_count : Nat
  total_space_freed : Nat
  deleted_files : List PStr
deriving DecidableEq, Repr

/-- The per-pair loop of `delete_duplicates`.  For each duplicate path:
`os.path.getsize` failing skips the file entirely; otherwise its size is
added to `total_freed` *before* the removal is attempted; in non-simulate
mode a successful `os.remove` appends the path to `deleted_files` and bumps
`deleted_count`, while a failing `os.remove` is caught and only skips those
two updates (the freed-byte counter has already been incremented). -/
def deleteLoop (simulate : Bool) :
    List (PStr × PStr) → Nat → Nat → List PStr → DelEnv →
    Nat × Nat × List PStr × DelEnv
  | [], cnt, freed, files, env => (cnt, freed, files, env)
  | (dup, _) :: t, cnt, freed, files, env =>
    match getSizeE env dup with
    | none => deleteLoop simulate t cnt freed files env
    | some (sz, remOk) =>
      if simulate then deleteLoop simulate t cnt (freed + sz) files env
      else if remOk then
        deleteLoop simulate t (cnt + 1) (freed + sz) (files ++ [dup])
          (removeE env dup)
      else deleteLoop simulate t cnt (freed + sz) files env

/-- `FileManager.delete_duplicates` (returns the result dict and the
filesystem after the removals). -/
def delete_duplicates (env : DelEnv) (duplicates : List (PStr × PStr))
    (simulate : Bool) : DelResult × DelEnv :=
  let r := deleteLoop simulate duplicates 0 0 [] env
  (⟨(if simulate then 0 else r.1),
    (if simulate then duplicates.length else 0),
    r.2.1, r.2.2.1⟩, r.2.2.2)

/-- `os.path.basename`: the part of the path after the last `/` (47). -/
def basenameL (p : PStr) : PStr :=
  p.foldl (fun acc c => if c = 47 then [] else acc ++ [c]) []

/-- `os.path.join(target_folder, filename)` for a relative second argument. -/
def joinPath (dir file : PStr) : PStr :=
  if dir.getLast? = some 47 then dir ++ file else dir ++ [47] ++ file

/-- Result of `FileManager.move_duplicates`: either the error dict returned
when the target folder cannot be created, or the `moved_count`/`moved_files`
dict. -/
inductive MoveOutcome where
  | err
  | ok (moved_count : Nat) (moved_files : List PStr)
deriving DecidableEq, Repr

/-- The per-pair loop of `move_duplicates`: a failing `shutil.move` is
caught, logged and skipped; a successful one records `(source,
destination)`. -/
def moveLoop (moveOk : PStr → Bool) (target : PStr) :
    List (PStr × PStr) → List (PStr × PStr)
  | [] => []
  | (dup, _) :: t =>
    if moveOk dup then
      (dup, joinPath target (basenameL dup)) :: moveLoop moveOk target t
    else moveLoop moveOk target t

/-- `FileManager.move_duplicates`.  `targetExists` models
`os.path.exists(target_folder)`, `mkdirOk` whether `os.makedirs` succeeds,
and `moveOk p` whether `shutil.move` succeeds for duplicate path `p`.  The
second component is the list of performed moves `(source, destination)`;
it is empty when the error dict is returned, since the loop is never
entered. -/
def move_duplicates (targetExists mkdirOk : Bool) (moveOk : PStr → Bool)
    (duplicates : List (PStr × PStr)) (target : PStr) :
    MoveOutcome × List (PStr × PStr) :=
  if targetExists = false ∧ mkdirOk = false then (MoveOutcome.err, [])
  else
    let moved := moveLoop moveOk target duplicates
    (MoveOutcome.ok moved.length (moved.map Prod.snd), moved)

/-! ## Cache-free descriptions of the scanners

`calculate_full_hash` depends on the cache only through the entry stored
under the file's own path.  `fhPure` is its result as a function of that
entry, and `fhR X c` the per-file full-hash oracle induced by a starting
cache `c`.  The scanners are related to cache-free variants parameterised
by such an oracle. -/

/-- Result of `calculate_full_hash` as a function of the cache entry for
the file's path. -/
def fhPure (X : List Nat → Nat) (e : Option (Nat × Nat)) (f : FSFile) :
    Option Nat :=
  if f.mtimeOk then
    match e with
    | some (m, h) =>
      if m = f.mtime then some h
      else if f.fullOk then some (X f.content) else none
    | none => if f.fullOk then some (X f.content) else none
  else none

/-- The full-hash oracle induced by cache `c`. -/
def fhR (X : List Nat → Nat) (c : Cache) (f : FSFile) : Option Nat :=
  fhPure X (lookupC c f.path) f

/-- Two caches that induce the same full-hash oracle on every file of
`walk`. -/
def Agrees (X : List Nat → Nat) (walk : List FSFile) (c c' : Cache) : Prop :=
  ∀ f ∈ walk, fhR X c' f = fhR X c f

/-- Cache-free version of `scanFullList`. -/
def pureScanFull (R : FSFile → Option Nat) :
    List FSFile → List (Nat × FSFile) → List (FSFile × FSFile)
  | [], _ => []
  | f :: t, fh =>
    match R f with
    | none => pureScanFull R t fh
    | some h =>
      match lookupA fh h with
      | some a =>
        (anchorCompare f a).1 ::
          pureScanFull R t (storeA fh h (anchorCompare f a).2)
      | none => pureScanFull R t (storeA fh h f)

/-- Cache-free version of `scanQuickGroups`. -/
def pureScanQuick (R : FSFile → Option Nat) :
    List (Nat × List FSFile) → List (FSFile × FSFile)
  | [] => []
  | (_, fl) :: t =>
    if fl.length < 2 then pureScanQuick R t
    else pureScanFull R fl [] ++ pureScanQuick R t

/-- Cache-free version of `scanSizeGroups`. -/
def pureScanSizes (Q R : FSFile → Option Nat) :
    List (Nat × List FSFile) → List (FSFile × FSFile)
  | [] => []
  | (_, files) :: t =>
    if files.length < 2 then pureScanSizes Q R t
    else pureScanQuick R (quickGroupsR Q files) ++ pureScanSizes Q R t

/-- Cache-free version of `streamMatch`. -/
def pureStreamMatch (R : FSFile → Option Nat) :
    List Anchor → FSFile → List Anchor × Option (FSFile × FSFile)
  | [], _ => ([], none)
  | a :: t, f =>
    let fill : Option Nat :=
      match a.full with
      | some h => some h
      | none => R a.file
    if R f = fill then
      (⟨(anchorCompare f a.file).2, fill⟩ :: t, some (anchorCompare f a.file).1)
    else
      let rest := pureStreamMatch R t f
      (⟨a.file, fill⟩ :: rest.1, rest.2)

/-- Cache-free pair output of the streaming candidate loop. -/
def pureStreamGo (Q R : FSFile → Option Nat) :
    List FSFile → Buckets → List (FSFile × FSFile)
  | [], _ => []
  | f :: t, bks =>
    match Q f with
    | none => pureStreamGo Q R t bks
    | some q =>
      let r := pureStreamMatch R (lookupB bks q) f
      let ans :=
        match r.2 with
        | some _ => r.1
        | none => r.1 ++ [⟨f, none⟩]
      r.2.toList ++ pureStreamGo Q R t (storeB bks q ans)

/-- The evolving-anchor pair production for one content class: the first
file (when no anchor is seeded) becomes the anchor; every later file yields
one pair against the current anchor and possibly replaces it
(`anchorCompare`). -/
def classPairs : Option FSFile → List FSFile → List (FSFile × FSFile)
  | _, [] => []
  | none, f :: t => classPairs (some f) t
  | some a, f :: t =>
    (anchorCompare f a).1 :: classPairs (some (anchorCompare f a).2) t

/-! ## Hypothesis vocabulary -/

/-- The walk lists pairwise-distinct paths (a filesystem walk never yields
the same absolute path twice). -/
def PathsNodup (walk : List FSFile) : Prop :=
  (walk.map FSFile.path).Nodup

/-- Every reported size is the content's byte length (no size/read race). -/
def SizesMatch (walk : List FSFile) : Prop :=
  ∀ f ∈ walk, f.size = f.content.length

/-- Every file's modification time and content can be read. -/
def AllReadable (walk : List FSFile) : Prop :=
  ∀ f ∈ walk, f.mtimeOk = true ∧ f.fullOk = true

/-- The hash function does not collide on the contents occurring in the
walk (the spec's "collision-resistant-enough" assumption, §4.4). -/
def InjOnContents (X : List Nat → Nat) (walk : List FSFile) : Prop :=
  ∀ f ∈ walk, ∀ g ∈ walk, X f.content = X g.content → f.content = g.content

/-- Every cache entry that would be trusted (stored mtime equal to the
file's current mtime) stores that file's true content hash.  The spec
accepts that a file rewritten with preserved mtime violates this (§3,
"accepted weakness"); the empty cache satisfies it trivially. -/
def CacheConsistent (X : List Nat → Nat) (walk : List FSFile) (c : Cache) :
    Prop :=
  ∀ f ∈ walk, ∀ m h, lookupC c f.path = some (m, h) → m = f.mtime →
    h = X f.content

/-! ## Concrete instances used by witnesses and counterexamples -/

/-- A concrete stand-in for the xxhash64 digest used when evaluating the
model on concrete inputs. -/
def Xc : List Nat → Nat := fun l => l.foldl (fun a b => a * 37 + b + 1) 7

/-- Concrete file constructor (all concrete files have `sizeOk`). -/
def mkF (p d : PStr) (sz : Nat) (cont : List Nat) (mt : Nat)
    (qOk mOk fOk : Bool) : FSFile :=
  ⟨p, d, p, sz, cont, mt, true, qOk, mOk, fOk⟩

/-- `a/file1`, content `[88]`. -/
def wa : FSFile := mkF [10, 0] [10] 1 [88] 1 true true true
/-- `b/file1`, content `[88]` — a duplicate of `wa` in a later directory. -/
def wb : FSFile := mkF [11, 0] [11] 1 [88] 2 true true true
/-- `c/file2`, content `[89]` — same size, different content. -/
def wc : FSFile := mkF [12, 0] [12] 1 [89] 3 true true true
/-- `z/f`: same content as `wzb` but in a directory sorting later. -/
def wza : FSFile := mkF [20, 0] [20] 1 [7] 4 true true true
/-- `b/f`: arrives second, wins the canonicalization. -/
def wzb : FSFile := mkF [11, 5] [11] 1 [7] 5 true true true

/-- First unreadable file (full-content read fails). -/
def g1 : FSFile := mkF [10, 1] [10] 1 [0] 10 true true false
/-- Second unreadable file, same size and leading window as `g1`. -/
def g2 : FSFile := mkF [11, 1] [11] 1 [0] 11 true true false

/-- Unreadable file of size 1 (full-content read fails). -/
def h1 : FSFile := mkF [10, 2] [10] 1 [0] 20 true true false
/-- Size-1 companion of `h1` (quick hash fails, so it never enters a bucket). -/
def h1q : FSFile := mkF [10, 3] [10] 1 [5] 21 false true true
/-- Unreadable file of size 2 whose quick hash collides with `h1`'s. -/
def h2 : FSFile := mkF [11, 2] [11] 2 [0] 22 true true false
/-- Size-2 companion of `h2` (quick hash fails). -/
def h2q : FSFile := mkF [11, 3] [11] 2 [6] 23 false true true

/-! ## Basic lemmas about the cache -/

theorem lookupC_storeC (c : Cache) (p q : PStr) (v : Nat × Nat) :
    lookupC (storeC c p v) q = if p = q then some v else lookupC c q := by
  induction c with
  | nil => simp [storeC, lookupC]
  | cons e t ih =>
    obtain ⟨p', m', h'⟩ := e
    by_cases hp : p' = p
    · subst hp
      simp only [storeC, if_pos rfl, lookupC]
      by_cases hq : p' = q
      · simp [hq]
      · simp [hq, lookupC]
    · simp only [storeC, if_neg hp, lookupC]
      by_cases hq : p' = q
      · subst hq
        have : ¬ p = p' := fun h => hp h.symm
        simp [this]
      · simp [hq, ih]

/-- `calculate_full_hash` returns the oracle value induced by the entry for
the file's own path. -/
theorem cfh_fst (X : List Nat → Nat) (c : Cache) (f : FSFile) :
    (calculate_full_hash X c f).1 = fhR X c f := by
  cases hm : f.mtimeOk
  · simp [calculate_full_hash, fhR, fhPure, hm]
  · cases hl : lookupC c f.path
    · cases hf : f.fullOk <;>
        simp [calculate_full_hash, fhR, fhPure, hm, hl, hf]
    · rename_i mh
      obtain ⟨m, h⟩ := mh
      by_cases hme : m = f.mtime
      · simp [calculate_full_hash, fhR, fhPure, hm, hl, hme]
      · cases hf : f.fullOk <;>
          simp [calculate_full_hash, fhR, fhPure, hm, hl, hme, hf]

/-- A `calculate_full_hash` call only touches the entry stored under the
file's own path. -/
theorem cfh_snd_other (X : List Nat → Nat) (c : Cache) (f : FSFile)
    (q : PStr) (hq : f.path ≠ q) :
    lookupC (calculate_full_hash X c f).2 q = lookupC c q := by
  cases hm : f.mtimeOk
  · simp [calculate_full_hash, hm]
  · cases hl : lookupC c f.path
    · cases hf : f.fullOk <;>
        simp [calculate_full_hash, hm, hl, hf, lookupC_storeC, hq]
    · rename_i mh
      obtain ⟨m, h⟩ := mh
      by_cases hme : m = f.mtime
      · simp [calculate_full_hash, hm, hl, hme]
      · cases hf : f.fullOk <;>
          simp [calculate_full_hash, hm, hl, hme, hf, lookupC_storeC, hq]

/-- After a `calculate_full_hash` call, the file's own oracle value is
unchanged. -/
theorem cfh_snd_self (X : List Nat → Nat) (c : Cache) (f : FSFile) :
    fhR X (calculate_full_hash X c f).2 f = fhR X c f := by
  cases hm : f.mtimeOk
  · simp [calculate_full_hash, fhR, fhPure, hm]
  · cases hl : lookupC c f.path
    · cases hf : f.fullOk <;>
        simp [calculate_full_hash, fhR, fhPure, hm, hl, hf, lookupC_storeC]
    · rename_i mh
      obtain ⟨m, h⟩ := mh
      by_cases hme : m = f.mtime
      · simp [calculate_full_hash, fhR, fhPure, hm, hl, hme]
      · cases hf : f.fullOk <;>
          simp [calculate_full_hash, fhR, fhPure, hm, hl, hme, hf,
            lookupC_storeC]

/-! ## Claim C5 -/

/-- C5.  For a file whose mtime and content are readable,
`calculate_full_hash` returns the cached hash without reading the content —
the result is the stored hash and the cache is left untouched — if and only
if a cache entry exists for the path whose stored modification time equals
the file's current modification time; otherwise it hashes the content and
stores `(current mtime, new hash)` back into the cache. -/
theorem C5_full_hash_cache_iff (X : List Nat → Nat) (c : Cache) (f : FSFile)
    (hm : f.mtimeOk = true) (hf : f.fullOk = true) :
    (∃ h, lookupC c f.path = some (f.mtime, h) ∧
      calculate_full_hash X c f = (some h, c)) ∨
    ((∀ hsh, lookupC c f.path ≠ some (f.mtime, hsh)) ∧
      calculate_full_hash X c f =
        (some (X f.content), storeC c f.path (f.mtime, X f.content))) := by
  cases hl : lookupC c f.path
  · right
    constructor
    · intro hsh hcon
      exact Option.noConfusion hcon
    · simp [calculate_full_hash, hm, hl, hf]
  · rename_i mh
    obtain ⟨m, h⟩ := mh
    by_cases hme : m = f.mtime
    · left
      refine ⟨h, ?_, ?_⟩
      · rw [hme]
      · simp [calculate_full_hash, hm, hl, hme]
    · right
      constructor
      · intro hsh hcon
        have h2 := (Option.some.injEq _ _).mp hcon
        exact hme (congrArg Prod.fst h2)
      · simp [calculate_full_hash, hm, hl, hme, hf]

/-- Witness for C5 at a concrete hit: the entry `([10,0] ↦ (1, 42))`
matches `wa`'s mtime, so the stored hash 42 is returned and the cache is
unchanged. -/
theorem C5_full_hash_cache_iff_witness :
    (∃ h, lookupC [([10, 0], 1, 42)] wa.path = some (wa.mtime, h) ∧
      calculate_full_hash Xc [([10, 0], 1, 42)] wa = (some h, [([10, 0], 1, 42)])) ∨
    ((∀ hsh, lookupC [([10, 0], 1, 42)] wa.path ≠ some (wa.mtime, hsh)) ∧
      calculate_full_hash Xc [([10, 0], 1, 42)] wa =
        (some (Xc wa.content), storeC [([10, 0], 1, 42)] wa.path
          (wa.mtime, Xc wa.content))) :=
  C5_full_hash_cache_iff Xc [([10, 0], 1, 42)] wa (by decide) (by decide)

/-! ## Claim C7 -/

theorem getSizeE_removeE (env : DelEnv) (p q : PStr) (hpq : p ≠ q) :
    getSizeE (removeE env p) q = getSizeE env q := by
  induction env with
  | nil => rfl
  | cons e t ih =>
    obtain ⟨p', v⟩ := e
    by_cases h1 : p' = p
    · subst h1
      have h2 : ¬ p' = q := fun h => hpq (h ▸ rfl)
      simp [removeE, getSizeE, h2, ih]
    · by_cases h2 : p' = q
      · subst h2
        simp [removeE, getSizeE, h1]
      · simp [removeE, getSizeE, h1, h2, ih]

/-- Non-simulate `deleteLoop`: the success list collects exactly the
duplicates whose size read and removal both succeed, the counter is its
length, and the freed-byte total adds the size of every duplicate whose
size read succeeds — whether or not the removal then fails. -/
theorem deleteLoop_false_spec (dups : List (PStr × PStr)) (env : DelEnv)
    (hnd : (dups.map Prod.fst).Nodup) (cnt freed : Nat) (files : List PStr) :
    (deleteLoop false dups cnt freed files env).1
      = cnt + ((dups.filter (fun d =>
          match getSizeE env d.1 with
          | some (_, remOk) => remOk
          | none => false)).map Prod.fst).length
    ∧ (deleteLoop false dups cnt freed files env).2.1
      = freed + (dups.filterMap
          (fun d => (getSizeE env d.1).map Prod.fst)).sum
    ∧ (deleteLoop false dups cnt freed files env).2.2.1
      = files ++ (dups.filter (fun d =>
          match getSizeE env d.1 with
          | some (_, remOk) => remOk
          | none => false)).map Prod.fst := by
  induction dups generalizing cnt freed files env with
  | nil => simp [deleteLoop]
  | cons d t ih =>
    obtain ⟨dup, o⟩ := d
    have hnd2 : (dup :: t.map Prod.fst).Nodup := by simpa using hnd
    have hnd' : (t.map Prod.fst).Nodup := (List.nodup_cons.mp hnd2).2
    have hdup : dup ∉ t.map Prod.fst := (List.nodup_cons.mp hnd2).1
    cases hg : getSizeE env dup with
    | none =>
      have hstep : deleteLoop false ((dup, o) :: t) cnt freed files env
          = deleteLoop false t cnt freed files env := by
        simp [deleteLoop, hg]
      obtain ⟨e1, e2, e3⟩ := ih env hnd' cnt freed files
      rw [hstep]
      refine ⟨?_, ?_, ?_⟩ <;> simp [hg, e1, e2, e3]
    | some v =>
      obtain ⟨sz, remOk⟩ := v
      have henv : ∀ d ∈ t, getSizeE (removeE env dup) d.1 = getSizeE env d.1 := by
        intro x hx
        apply getSizeE_removeE
        intro hc
        exact hdup (hc ▸ List.mem_map_of_mem Prod.fst hx)
      have hfil : t.filter (fun d =>
            match getSizeE (removeE env dup) d.1 with
            | some (_, remOk) => remOk
            | none => false)
          = t.filter (fun d =>
            match getSizeE env d.1 with
            | some (_, remOk) => remOk
            | none => false) := by
        apply List.filter_congr
        intro x hx
        rw [henv x hx]
      have hfm : t.filterMap (fun d => (getSizeE (removeE env dup) d.1).map Prod.fst)
          = t.filterMap (fun d => (getSizeE env d.1).map Prod.fst) := by
        apply List.filterMap_congr
        intro x hx
        rw [henv x hx]
      cases remOk with
      | true =>
        have hstep : deleteLoop false ((dup, o) :: t) cnt freed files env
            = deleteLoop false t (cnt + 1) (freed + sz) (files ++ [dup])
                (removeE env dup) := by
          simp [deleteLoop, hg]
        obtain ⟨e1, e2, e3⟩ :=
          ih (removeE env dup) hnd' (cnt + 1) (freed + sz) (files ++ [dup])
        rw [hfil] at e1 e3
        rw [hfm] at e2
        rw [hstep]
        refine ⟨?_, ?_, ?_⟩
        · rw [e1]
          simp [hg]
          omega
        · rw [e2]
          simp [hg]
          omega
        · rw [e3]
          simp [hg]
      | false =>
        have hstep : deleteLoop false ((dup, o) :: t) cnt freed files env
            = deleteLoop false t cnt (freed + sz) files env := by
          simp [deleteLoop, hg]
        obtain ⟨e1, e2, e3⟩ := ih env hnd' cnt (freed + sz) files
        rw [hstep]
        refine ⟨?_, ?_, ?_⟩
        · rw [e1]
          simp [hg]
        · rw [e2]
          simp [hg]
          omega
        · rw [e3]
          simp [hg]

/-- Simulate-mode `deleteLoop`: identical freed-byte accounting, no state
change, no successes recorded. -/
theorem deleteLoop_true_spec (dups : List (PStr × PStr)) (env : DelEnv)
    (cnt freed : Nat) (files : List PStr) :
    deleteLoop true dups cnt freed files env
      = (cnt,
         freed + (dups.filterMap (fun d => (getSizeE env d.1).map Prod.fst)).sum,
         files, env) := by
  induction dups generalizing freed with
  | nil => simp [deleteLoop]
  | cons d t ih =>
    obtain ⟨dup, o⟩ := d
    cases hg : getSizeE env dup with
    | none => simp [deleteLoop, hg, ih]
    | some v =>
      obtain ⟨sz, remOk⟩ := v
      simp only [deleteLoop, hg]
      rw [ih]
      simp [hg]
      omega

/-- C7 counterexample.  One pair whose duplicate's size (5 bytes) is
readable but whose removal fails: nothing is removed, yet
`total_space_freed` is 5 — the freed-byte total does *not* accumulate only
the sizes of files actually removed, contradicting the claim. -/
theorem C7_counterexample :
    (delete_duplicates [([3], 5, false)] [([3], [4])] false).1.total_space_freed = 5
    ∧ (delete_duplicates [([3], 5, false)] [([3], [4])] false).1.deleted_files
      = ([] : List PStr)
    ∧ (delete_duplicates [([3], 5, false)] [([3], [4])] false).1.deleted_count = 0
    ∧ (delete_duplicates [([3], 5, false)] [([3], [4])] false).2
      = [([3], 5, false)] := by
  decide

/-- C7 as amended.  For pairwise-distinct duplicate paths, non-simulate
`delete_duplicates` returns as `deleted_files` exactly the duplicates whose
size read and removal both succeeded (per-file failures are excluded from
the success list and never abort the batch), `deleted_count` is its length,
and the freed-byte total accumulates the size of **every** duplicate whose
size could be read — including those whose removal then failed; simulate
mode performs identical freed-byte accounting while removing nothing and
reporting no deletions. -/
theorem C7_delete_amended (env : DelEnv) (dups : List (PStr × PStr))
    (hnd : (dups.map Prod.fst).Nodup) :
    (delete_duplicates env dups false).1.deleted_files
      = (dups.filter (fun d =>
          match getSizeE env d.1 with
          | some (_, remOk) => remOk
          | none => false)).map Prod.fst
    ∧ (delete_duplicates env dups false).1.deleted_count
      = (delete_duplicates env dups false).1.deleted_files.length
    ∧ (delete_duplicates env dups false).1.total_space_freed
      = (dups.filterMap (fun d => (getSizeE env d.1).map Prod.fst)).sum
    ∧ (delete_duplicates env dups true).1.total_space_freed
      = (delete_duplicates env dups false).1.total_space_freed
    ∧ (delete_duplicates env dups true).2 = env
    ∧ (delete_duplicates env dups true).1.deleted_count = 0
    ∧ (delete_duplicates env dups true).1.deleted_files = [] := by
  obtain ⟨e1, e2, e3⟩ := deleteLoop_false_spec dups env hnd 0 0 []
  have e4 := deleteLoop_true_spec dups env 0 0 []
  unfold delete_duplicates
  rw [e4]
  simp only [e1, e2, e3]
  simp

/-- Witness for C7's amended theorem at one readable-but-unremovable pair. -/
theorem C7_delete_amended_witness :
    (delete_duplicates [([3], 5, false)] [([3], [6])] false).1.deleted_files
      = ([([3], [6])].filter (fun d =>
          match getSizeE [([3], 5, false)] d.1 with
          | some (_, remOk) => remOk
          | none => false)).map Prod.fst
    ∧ (delete_duplicates [([3], 5, false)] [([3], [6])] false).1.deleted_count
      = (delete_duplicates [([3], 5, false)] [([3], [6])] false).1.deleted_files.length
    ∧ (delete_duplicates [([3], 5, false)] [([3], [6])] false).1.total_space_freed
      = ([([3], [6])].filterMap
          (fun d => (getSizeE [([3], 5, false)] d.1).map Prod.fst)).sum
    ∧ (delete_duplicates [([3], 5, false)] [([3], [6])] true).1.total_space_freed
      = (delete_duplicates [([3], 5, false)] [([3], [6])] false).1.total_space_freed
    ∧ (delete_duplicates [([3], 5, false)] [([3], [6])] true).2 = [([3], 5, false)]
    ∧ (delete_duplicates [([3], 5, false)] [([3], [6])] true).1.deleted_count = 0
    ∧ (delete_duplicates [([3], 5, false)] [([3], [6])] true).1.deleted_files = [] :=
  C7_delete_amended [([3], 5, false)] [([3], [6])] (by decide)

/-! ## Claim C8 -/

theorem moveLoop_spec (mv : PStr → Bool) (tgt : PStr)
    (dups : List (PStr × PStr)) :
    moveLoop mv tgt dups
      = (dups.filter (fun d => mv d.1)).map
          (fun d => (d.1, joinPath tgt (basenameL d.1))) := by
  induction dups with
  | nil => rfl
  | cons d t ih =>
    obtain ⟨dup, o⟩ := d
    cases hm : mv dup <;> simp [moveLoop, hm, ih]

/-- C8.  If the target directory is missing and cannot be created,
`move_duplicates` returns the error dict and performs no relocation at all;
otherwise it relocates each duplicate by filename into the target
directory, skipping (without aborting the batch) every duplicate whose
individual move fails, and reports exactly the successfully moved files and
their count. -/
theorem C8_move_contract (te mk : Bool) (mv : PStr → Bool)
    (dups : List (PStr × PStr)) (tgt : PStr) :
    (te = false ∧ mk = false →
      move_duplicates te mk mv dups tgt = (MoveOutcome.err, []))
    ∧ ((te = true ∨ mk = true) →
      move_duplicates te mk mv dups tgt
        = (MoveOutcome.ok (dups.filter (fun d => mv d.1)).length
            ((dups.filter (fun d => mv d.1)).map
              (fun d => joinPath tgt (basenameL d.1))),
           (dups.filter (fun d => mv d.1)).map
             (fun d => (d.1, joinPath tgt (basenameL d.1))))) := by
  constructor
  · intro h
    simp [move_duplicates, h.1, h.2]
  · intro h
    have hcond : ¬ (te = false ∧ mk = false) := by
      rcases h with h | h <;> simp [h]
    simp only [move_duplicates, if_neg hcond, moveLoop_spec]
    simp [List.map_map, Function.comp]

/-- Witness for C8: one movable and one unmovable duplicate, with the
target directory created on the fly. -/
theorem C8_move_contract_witness :
    move_duplicates false true (fun p => decide (p ≠ [9]))
        [([8], [1]), ([9], [2])] [5]
      = (MoveOutcome.ok
          (([([8], [1]), ([9], [2])].filter
              (fun d => (fun p => decide (p ≠ [9])) d.1)).length)
          (([([8], [1]), ([9], [2])].filter
              (fun d => (fun p => decide (p ≠ [9])) d.1)).map
            (fun d => joinPath [5] (basenameL d.1))),
         ([([8], [1]), ([9], [2])].filter
             (fun d => (fun p => decide (p ≠ [9])) d.1)).map
           (fun d => (d.1, joinPath [5] (basenameL d.1)))) :=
  (C8_move_contract false true (fun p => decide (p ≠ [9]))
    [([8], [1]), ([9], [2])] [5]).2 (Or.inr rfl)

/-! ## Claim C1 -/

/-- C1 fails on `find_duplicates_stream`: `g1` and `g2` share a size and a
quick hash, but both full-content reads fail, so `calculate_full_hash`
returns the error value for both.  The batch scanner correctly skips them
(`if not full_hash: continue`), yet the streaming scanner compares the two
error values with `==` (`None == None` is `True`) and emits the pair
`(g2, g1)` — files whose full-hash computation failed are members of an
emitted pair, and no full-hash equality was ever established. -/
theorem C1_stream_pairs_unreadable_files :
    streamPairs
        (find_duplicates_stream Xc none 0 [g1, g2] [] (fun _ => false)).1
      = [(g2, g1)]
    ∧ (calculate_full_hash Xc [] g1).1 = none
    ∧ (calculate_full_hash Xc [] g2).1 = none
    ∧ (find_duplicates Xc none 0 [g1, g2] []).1 = [] := by
  decide

/-! ## Claim C3 -/

/-- C3 fails on `find_duplicates_stream`: `h1` (size 1) and `h2` (size 2)
are both candidates (each shares its size with a companion file), land in
the same quick-hash bucket, and both full-content reads fail — the
`None == None` comparison then emits the pair `(h2, h1)`, a DuplicatePair
whose members have distinct byte sizes.  (The streaming bucket table is
shared across size groups, so size-based separation is not restored after
quick hashing.) -/
theorem C3_stream_pairs_distinct_sizes :
    streamPairs
        (find_duplicates_stream Xc none 0 [h1, h1q, h2, h2q] []
          (fun _ => false)).1
      = [(h2, h1)]
    ∧ h2.size = 2
    ∧ h1.size = 1 := by
  decide

/-! ## Claim C2 -/

theorem lexLt_asymm (a : PStr) : ∀ b, lexLt a b = true → lexLt b a = false := by
  induction a with
  | nil =>
    intro b
    cases b <;> simp [lexLt]
  | cons x s ih =>
    intro b
    cases b with
    | nil => simp [lexLt]
    | cons y t =>
      simp only [lexLt]
      intro h
      by_cases h1 : x < y
      · have h2 : ¬ y < x := Nat.lt_asymm h1
        simp [h1, h2]
      · by_cases h2 : y < x
        · simp [h1, h2] at h
        · have h3 : lexLt s t = true := by simpa [h1, h2] using h
          simp [h1, h2, ih t h3]

/-- Every output of `anchorCompare` is a pair `(duplicate, original)` whose
duplicate's lowercased parent directory does not sort strictly before the
original's. -/
theorem anchorCompare_not_lt (f a : FSFile) :
    lexLt (pyLower (anchorCompare f a).1.1.dir)
      (pyLower (anchorCompare f a).1.2.dir) = false := by
  unfold anchorCompare
  cases h : lexLt (pyLower f.dir) (pyLower a.dir)
  · simp [h]
  · simpa [h] using lexLt_asymm _ _ h

theorem scanFullList_pair_shape (X : List Nat → Nat) (l : List FSFile) :
    ∀ c fh, ∀ p ∈ (scanFullList X l c fh).1, ∃ f a, p = (anchorCompare f a).1 := by
  induction l with
  | nil => intro c fh p hp; simp [scanFullList] at hp
  | cons f t ih =>
    intro c fh p hp
    rcases hc : calculate_full_hash X c f with ⟨h?, c1⟩
    cases h? with
    | none =>
      simp only [scanFullList, hc] at hp
      exact ih c1 fh p hp
    | some h =>
      cases ha : lookupA fh h with
      | none =>
        simp only [scanFullList, hc, ha] at hp
        exact ih c1 (storeA fh h f) p hp
      | some a =>
        simp only [scanFullList, hc, ha] at hp
        simp only [List.mem_cons] at hp
        rcases hp with hp | hp
        · exact ⟨f, a, hp⟩
        · exact ih c1 (storeA fh h (anchorCompare f a).2) p hp

theorem scanQuickGroups_pair_shape (X : List Nat → Nat)
    (gs : List (Nat × List FSFile)) :
    ∀ c, ∀ p ∈ (scanQuickGroups X gs c).1, ∃ f a, p = (anchorCompare f a).1 := by
  induction gs with
  | nil => intro c p hp; simp [scanQuickGroups] at hp
  | cons g t ih =>
    intro c p hp
    obtain ⟨q, fl⟩ := g
    by_cases hlen : fl.length < 2
    · rw [scanQuickGroups, if_pos hlen] at hp
      exact ih c p hp
    · rw [scanQuickGroups, if_neg hlen] at hp
      simp only [List.mem_append] at hp
      rcases hp with hp | hp
      · exact scanFullList_pair_shape X fl c [] p hp
      · exact ih _ p hp

theorem scanSizeGroups_pair_shape (X : List Nat → Nat)
    (gs : List (Nat × List FSFile)) :
    ∀ c, ∀ p ∈ (scanSizeGroups X gs c).1, ∃ f a, p = (anchorCompare f a).1 := by
  induction gs with
  | nil => intro c p hp; simp [scanSizeGroups] at hp
  | cons g t ih =>
    intro c p hp
    obtain ⟨s, files⟩ := g
    by_cases hlen : files.length < 2
    · rw [scanSizeGroups, if_pos hlen] at hp
      exact ih c p hp
    · rw [scanSizeGroups, if_neg hlen] at hp
      simp only [List.mem_append] at hp
      rcases hp with hp | hp
      · exact scanQuickGroups_pair_shape X _ c p hp
      · exact ih _ p hp

theorem streamMatch_pair_shape (X : List Nat → Nat) (ans : List Anchor) :
    ∀ c f p, (streamMatch X ans c f).2.1 = some p →
      ∃ g a, p = (anchorCompare g a).1 := by
  induction ans with
  | nil => intro c f p hp; simp [streamMatch] at hp
  | cons a t ih =>
    intro c f p hp
    rw [streamMatch] at hp
    by_cases hcur :
        (calculate_full_hash X
          (match a.full with
           | some h => ((some h : Option Nat), c)
           | none => calculate_full_hash X c a.file).2 f).1
        = (match a.full with
           | some h => ((some h : Option Nat), c)
           | none => calculate_full_hash X c a.file).1
    · simp only [if_pos hcur] at hp
      exact ⟨f, a.file, (Option.some.injEq _ _).mp hp |>.symm⟩
    · simp only [if_neg hcur] at hp
      exact ih _ f p hp

theorem streamStep_pair_shape (X : List Nat → Nat) (st : StState) (f : FSFile) :
    ∀ p ∈ streamPairs (streamStep X st f).1, ∃ g a, p = (anchorCompare g a).1 := by
  intro p hp
  unfold streamStep at hp
  cases hq : calculate_quick_hash X f with
  | none =>
    rw [hq] at hp
    simp [streamPairs] at hp
  | some q =>
    rw [hq] at hp
    by_cases h50 :
        (st.processed + 1) % 50 = 0 <;>
      simp only [h50, if_true, if_false, reduceIte, streamPairs,
        List.filterMap] at hp <;>
    · rcases hm : (streamMatch X (lookupB st.buckets q) st.cache f).2.1 with _ | pr
      · simp [hm] at hp
      · rw [hm] at hp
        simp at hp
        subst hp
        exact streamMatch_pair_shape X _ _ _ _ hm

theorem streamLoop_pair_shape (X : List Nat → Nat) (stop : Nat → Bool)
    (l : List FSFile) :
    ∀ st, ∀ p ∈ streamPairs (streamLoop X stop l st).1,
      ∃ g a, p = (anchorCompare g a).1 := by
  induction l with
  | nil => intro st p hp; simp [streamLoop, streamPairs] at hp
  | cons f t ih =>
    intro st p hp
    rw [streamLoop] at hp
    by_cases hstop : stop st.processed
    · simp [hstop, streamPairs] at hp
    · simp only [hstop, if_false, Bool.false_eq_true, reduceIte] at hp
      unfold streamPairs at hp
      rw [List.filterMap_append] at hp
      rcases List.mem_append.mp hp with hp | hp
      · exact streamStep_pair_shape X st f p hp
      · exact ih _ p hp

/-- C2.  In both scanners every emitted pair `(duplicate, original)`
satisfies: the duplicate's lowercased parent directory does not sort
lexicographically before the original's — so whenever one member's parent
directory is strictly smaller under case-insensitive comparison, that
member is the original.  Moreover the anchor-update rule holds: when the
newly compared file's parent directory sorts strictly before the current
anchor's, the new file both becomes the original of the emitted pair and
replaces the anchor (so later comparisons use it); otherwise the anchor
file is kept as original and remains the anchor. -/
theorem C2_canonical_original (X : List Nat → Nat) (ext : Option PStr)
    (minSize : Nat) (walk : List FSFile) (c0 : Cache) (stop : Nat → Bool) :
    (∀ p ∈ (find_duplicates X ext minSize walk c0).1,
      lexLt (pyLower p.1.dir) (pyLower p.2.dir) = false)
    ∧ (∀ p ∈ streamPairs (find_duplicates_stream X ext minSize walk c0 stop).1,
      lexLt (pyLower p.1.dir) (pyLower p.2.dir) = false)
    ∧ (∀ f a : FSFile, lexLt (pyLower f.dir) (pyLower a.dir) = true →
      (anchorCompare f a).1 = (a, f) ∧ (anchorCompare f a).2 = f)
    ∧ (∀ f a : FSFile, lexLt (pyLower f.dir) (pyLower a.dir) = false →
      (anchorCompare f a).1 = (f, a) ∧ (anchorCompare f a).2 = a) := by
  refine ⟨?_, ?_, ?_, ?_⟩
  · intro p hp
    obtain ⟨f, a, rfl⟩ :=
      scanSizeGroups_pair_shape X (group_files_by_size ext minSize walk) c0 p hp
    exact anchorCompare_not_lt f a
  · intro p hp
    unfold find_duplicates_stream at hp
    simp only [streamPairs, List.filterMap] at hp
    obtain ⟨f, a, rfl⟩ :=
      streamLoop_pair_shape X stop (candidateFiles ext minSize walk) _ p hp
    exact anchorCompare_not_lt f a
  · intro f a h
    simp [anchorCompare, h]
  · intro f a h
    simp [anchorCompare, h]

/-- Witness for C2: the pair emitted for `wza`/`wzb` (where `wzb`, arriving
second, has the smaller parent directory and wins canonicalization). -/
theorem C2_canonical_original_witness :
    lexLt (pyLower wza.dir) (pyLower wzb.dir) = false :=
  (C2_canonical_original Xc none 0 [wza, wzb] [] (fun _ => false)).1
    (wza, wzb) (by decide)

/-! ## Claim C6 -/

theorem streamStep_processed (X : List Nat → Nat) (st : StState) (f : FSFile) :
    (streamStep X st f).2.processed = st.processed + 1 := by
  cases hq : calculate_quick_hash X f
  · simp [streamStep, hq]
  · by_cases h50 : (st.processed + 1) % 50 = 0 <;> simp [streamStep, hq, h50]

/-- The stop-predicate polls of the candidate loop: if the predicate is
false for the first `k` processed-counts and true at `k` (with more than
`k` candidates remaining), the loop runs exactly the first `k` candidates,
yields the `Stopped` event reporting the processed count, flushes the
current cache, and returns the state reached after those `k` candidates. -/
theorem streamLoop_stop_trace (X : List Nat → Nat) (stop : Nat → Bool) :
    ∀ (l : List FSFile) (k : Nat) (st : StState),
    (∀ j, j < k → stop (st.processed + j) = false) →
    stop (st.processed + k) = true →
    k < l.length →
    streamLoop X stop l st
      = ((stepsFold X (l.take k) st).1
          ++ [SEvent.stopped (st.processed + k),
              SEvent.flushEv (stepsFold X (l.take k) st).2.cache],
         (stepsFold X (l.take k) st).2) := by
  intro l
  induction l with
  | nil =>
    intro k st _ _ hk
    exact absurd hk (by simp)
  | cons f t ih =>
    intro k st hfirst hstop hk
    cases k with
    | zero =>
      have h0 : stop st.processed = true := by simpa using hstop
      simp [streamLoop, h0, stepsFold]
    | succ k' =>
      have h0 : stop st.processed = false := by
        have := hfirst 0 (Nat.succ_pos k')
        simpa using this
      have hpr := streamStep_processed X st f
      have hfirst' : ∀ j, j < k' →
          stop ((streamStep X st f).2.processed + j) = false := by
        intro j hj
        rw [hpr]
        have := hfirst (j + 1) (Nat.succ_lt_succ hj)
        simpa [Nat.add_assoc, Nat.add_comm 1 j] using this
      have hstop' : stop ((streamStep X st f).2.processed + k') = true := by
        rw [hpr]
        simpa [Nat.add_assoc, Nat.add_comm 1 k'] using hstop
      have hk' : k' < t.length := Nat.lt_of_succ_lt_succ (by simpa using hk)
      have hrec := ih k' (streamStep X st f).2 hfirst' hstop' hk'
      simp only [streamLoop, h0, Bool.false_eq_true, if_false, reduceIte, hrec,
        List.take_succ_cons, stepsFold]
      rw [hpr]
      simp [List.append_assoc, Nat.add_assoc, Nat.add_comm 1 k']

/-- The events of one `streamStep` call: a per-candidate event for exactly
the processed file, possibly followed by a periodic cache flush. -/
theorem streamStep_event_mem (X : List Nat → Nat) (st : StState) (g : FSFile) :
    ∀ e ∈ (streamStep X st g).1,
      (∃ pr n, e = SEvent.step g pr n) ∨ ∃ c, e = SEvent.flushEv c := by
  intro e he
  cases hq : calculate_quick_hash X g
  · simp only [streamStep, hq] at he
    simp at he
    exact Or.inl ⟨none, st.processed + 1, he⟩
  · by_cases h50 : (st.processed + 1) % 50 = 0
    · simp only [streamStep, hq] at he
      rw [if_pos (by simpa using h50)] at he
      simp at he
      rcases he with he | he
      · exact Or.inl ⟨_, _, he⟩
      · exact Or.inr ⟨_, he⟩
    · simp only [streamStep, hq] at he
      rw [if_neg (by simpa using h50)] at he
      simp at he
      exact Or.inl ⟨_, _, he⟩

/-- Every per-candidate event produced by the stop-free fold belongs to one
of the candidates it processed. -/
theorem stepsFold_step_mem (X : List Nat → Nat) :
    ∀ (l : List FSFile) (st : StState) (f : FSFile)
      (pr : Option (FSFile × FSFile)) (n : Nat),
    SEvent.step f pr n ∈ (stepsFold X l st).1 → f ∈ l := by
  intro l
  induction l with
  | nil =>
    intro st f pr n hmem
    simp [stepsFold] at hmem
  | cons g t ih =>
    intro st f pr n hmem
    simp only [stepsFold, List.mem_append] at hmem
    rcases hmem with hmem | hmem
    · rcases streamStep_event_mem X st g _ hmem with ⟨pr2, n2, he⟩ | ⟨c, he⟩
      · cases he
        exact List.mem_cons_self _ _
      · exact absurd he (by simp)
    · exact List.mem_cons_of_mem g (ih _ f pr n hmem)

/-- C6.  With a stop predicate that is false while fewer than `k` candidates
have been processed and true at `k` (and more than `k` candidates), the
stream consists of the two initialization events, the per-candidate events
of exactly the first `k` candidates, a `Stopped` event reporting exactly
`k` processed files, and a final cache flush; the final state is the state
after processing only those `k` candidates (so no remaining candidate was
hashed and the cache is flushed as of the stopping point), and every
per-candidate event concerns one of the first `k` candidates. -/
theorem C6_cancellation (X : List Nat → Nat) (ext : Option PStr)
    (minSize : Nat) (walk : List FSFile) (c0 : Cache) (stop : Nat → Bool)
    (k : Nat)
    (hfirst : ∀ j, j < k → stop j = false)
    (hstop : stop k = true)
    (hk : k < (candidateFiles ext minSize walk).length) :
    (find_duplicates_stream X ext minSize walk c0 stop).1
      = SEvent.initEv (candidateFiles ext minSize walk).length
        :: SEvent.scanStart
        :: ((stepsFold X ((candidateFiles ext minSize walk).take k)
              ⟨c0, [], 0, 0⟩).1
          ++ [SEvent.stopped k,
              SEvent.flushEv (stepsFold X
                ((candidateFiles ext minSize walk).take k)
                ⟨c0, [], 0, 0⟩).2.cache])
    ∧ (find_duplicates_stream X ext minSize walk c0 stop).2
      = (stepsFold X ((candidateFiles ext minSize walk).take k)
          ⟨c0, [], 0, 0⟩).2
    ∧ (∀ f pr n, SEvent.step f pr n ∈
        (find_duplicates_stream X ext minSize walk c0 stop).1 →
        f ∈ (candidateFiles ext minSize walk).take k) := by
  have h0 : (⟨c0, [], 0, 0⟩ : StState).processed = 0 := rfl
  have htr := streamLoop_stop_trace X stop (candidateFiles ext minSize walk) k
    ⟨c0, [], 0, 0⟩ (by intro j hj; simpa using hfirst j hj) (by simpa using hstop) hk
  refine ⟨?_, ?_, ?_⟩
  · dsimp only [find_duplicates_stream]
    rw [htr]
    simp
  · dsimp only [find_duplicates_stream]
    rw [htr]
  · intro f pr n hmem
    dsimp only [find_duplicates_stream] at hmem
    rw [htr] at hmem
    simp only [List.cons_append, List.mem_cons, List.mem_append] at hmem
    rcases hmem with h | h | h
    · exact absurd h (by simp)
    · exact absurd h (by simp)
    · rcases h with h | h
      · exact stepsFold_step_mem X _ _ f pr n h
      · exact absurd h (by simp)

/-- Witness for C6: two candidates, stop fires after one is processed. -/
theorem C6_cancellation_witness :
    (find_duplicates_stream Xc none 0 [wa, wb] [] (fun n => decide (n = 1))).1
      = SEvent.initEv (candidateFiles none 0 [wa, wb]).length
        :: SEvent.scanStart
        :: ((stepsFold Xc ((candidateFiles none 0 [wa, wb]).take 1)
              ⟨[], [], 0, 0⟩).1
          ++ [SEvent.stopped 1,
              SEvent.flushEv (stepsFold Xc
                ((candidateFiles none 0 [wa, wb]).take 1)
                ⟨[], [], 0, 0⟩).2.cache])
    ∧ (find_duplicates_stream Xc none 0 [wa, wb] [] (fun n => decide (n = 1))).2
      = (stepsFold Xc ((candidateFiles none 0 [wa, wb]).take 1)
          ⟨[], [], 0, 0⟩).2
    ∧ (∀ f pr n, SEvent.step f pr n ∈
        (find_duplicates_stream Xc none 0 [wa, wb] [] (fun n => decide (n = 1))).1 →
        f ∈ (candidateFiles none 0 [wa, wb]).take 1) :=
  C6_cancellation Xc none 0 [wa, wb] [] (fun n => decide (n = 1)) 1
    (by decide) (by decide) (by decide)

/-! ## Membership lemmas for the grouping passes -/

theorem addQuick_mem (q : Nat) (f : FSFile) :
    ∀ (d : List (Nat × List FSFile)), ∀ g ∈ addQuick d q f, ∀ x ∈ g.2,
      (∃ g', g' ∈ d ∧ x ∈ g'.2) ∨ x = f := by
  intro d
  induction d with
  | nil =>
    intro g hg x hx
    simp only [addQuick, List.mem_singleton] at hg
    subst hg
    simp at hx
    exact Or.inr hx
  | cons e t ih =>
    intro g hg x hx
    obtain ⟨k, fs⟩ := e
    by_cases hk : k = q
    · rw [addQuick, if_pos hk] at hg
      rcases List.mem_cons.mp hg with hg | hg
      · subst hg
        rcases List.mem_append.mp hx with hx | hx
        · exact Or.inl ⟨(k, fs), List.mem_cons_self _ _, hx⟩
        · simp at hx
          exact Or.inr hx
      · exact Or.inl ⟨g, List.mem_cons_of_mem _ hg, hx⟩
    · rw [addQuick, if_neg hk] at hg
      rcases List.mem_cons.mp hg with hg | hg
      · subst hg
        exact Or.inl ⟨(k, fs), List.mem_cons_self _ _, hx⟩
      · rcases ih g hg x hx with ⟨g', hg', hx'⟩ | hx'
        · exact Or.inl ⟨g', List.mem_cons_of_mem _ hg', hx'⟩
        · exact Or.inr hx'

theorem quickGroupsR_go_mem (Q : FSFile → Option Nat) (P : FSFile → Prop) :
    ∀ (files : List FSFile) (acc : List (Nat × List FSFile)),
    (∀ g ∈ acc, ∀ x ∈ g.2, P x) → (∀ f ∈ files, P f) →
    ∀ g ∈ files.foldl
      (fun d f =>
        match Q f with
        | none => d
        | some q => addQuick d q f) acc,
    ∀ x ∈ g.2, P x := by
  intro files
  induction files with
  | nil =>
    intro acc hacc _ g hg x hx
    exact hacc g hg x hx
  | cons f t ih =>
    intro acc hacc hP g hg x hx
    rw [List.foldl_cons] at hg
    have hPf : P f := hP f (List.mem_cons_self _ _)
    have hP' : ∀ y ∈ t, P y := fun y hy => hP y (List.mem_cons_of_mem _ hy)
    cases hq : Q f with
    | none =>
      rw [hq] at hg
      exact ih acc hacc hP' g hg x hx
    | some q =>
      rw [hq] at hg
      have hacc' : ∀ g' ∈ addQuick acc q f, ∀ y ∈ g'.2, P y := by
        intro g' hg' y hy
        rcases addQuick_mem q f acc g' hg' y hy with ⟨g'', hg'', hy'⟩ | hy'
        · exact hacc g'' hg'' y hy'
        · exact hy' ▸ hPf
      exact ih (addQuick acc q f) hacc' hP' g hg x hx

theorem quickGroupsR_mem (Q : FSFile → Option Nat) (files : List FSFile) :
    ∀ g ∈ quickGroupsR Q files, ∀ f ∈ g.2, f ∈ files :=
  quickGroupsR_go_mem Q (fun f => f ∈ files) files []
    (by intro g hg; simp at hg) (fun f hf => hf)

theorem addToGroup_mem (f : FSFile) :
    ∀ (d : List (Nat × List FSFile)), ∀ g ∈ addToGroup d f, ∀ x ∈ g.2,
      (∃ g', g' ∈ d ∧ x ∈ g'.2) ∨ x = f := by
  intro d
  induction d with
  | nil =>
    intro g hg x hx
    simp only [addToGroup, List.mem_singleton] at hg
    subst hg
    simp at hx
    exact Or.inr hx
  | cons e t ih =>
    intro g hg x hx
    obtain ⟨s, fs⟩ := e
    by_cases hs : s = f.size
    · rw [addToGroup, if_pos hs] at hg
      rcases List.mem_cons.mp hg with hg | hg
      · subst hg
        rcases List.mem_append.mp hx with hx | hx
        · exact Or.inl ⟨(s, fs), List.mem_cons_self _ _, hx⟩
        · simp at hx
          exact Or.inr hx
      · exact Or.inl ⟨g, List.mem_cons_of_mem _ hg, hx⟩
    · rw [addToGroup, if_neg hs] at hg
      rcases List.mem_cons.mp hg with hg | hg
      · subst hg
        exact Or.inl ⟨(s, fs), List.mem_cons_self _ _, hx⟩
      · rcases ih g hg x hx with ⟨g', hg', hx'⟩ | hx'
        · exact Or.inl ⟨g', List.mem_cons_of_mem _ hg', hx'⟩
        · exact Or.inr hx'

theorem group_files_go_mem (ext : Option PStr) (minSize : Nat)
    (P : FSFile → Prop) :
    ∀ (walk : List FSFile) (acc : List (Nat × List FSFile)),
    (∀ g ∈ acc, ∀ x ∈ g.2, P x) → (∀ f ∈ walk, P f) →
    ∀ g ∈ walk.foldl
      (fun d f => if passesFilters ext minSize f then addToGroup d f else d) acc,
    ∀ x ∈ g.2, P x := by
  intro walk
  induction walk with
  | nil =>
    intro acc hacc _ g hg x hx
    exact hacc g hg x hx
  | cons f t ih =>
    intro acc hacc hP g hg x hx
    rw [List.foldl_cons] at hg
    have hPf : P f := hP f (List.mem_cons_self _ _)
    have hP' : ∀ y ∈ t, P y := fun y hy => hP y (List.mem_cons_of_mem _ hy)
    by_cases hpass : passesFilters ext minSize f
    · rw [if_pos hpass] at hg
      have hacc' : ∀ g' ∈ addToGroup acc f, ∀ y ∈ g'.2, P y := by
        intro g' hg' y hy
        rcases addToGroup_mem f acc g' hg' y hy with ⟨g'', hg'', hy'⟩ | hy'
        · exact hacc g'' hg'' y hy'
        · exact hy' ▸ hPf
      exact ih (addToGroup acc f) hacc' hP' g hg x hx
    · rw [if_neg hpass] at hg
      exact ih acc hacc hP' g hg x hx

theorem group_files_by_size_mem (ext : Option PStr) (minSize : Nat)
    (walk : List FSFile) :
    ∀ g ∈ group_files_by_size ext minSize walk, ∀ f ∈ g.2, f ∈ walk :=
  group_files_go_mem ext minSize (fun f => f ∈ walk) walk []
    (by intro g hg; simp at hg) (fun f hf => hf)

theorem candidateFiles_go_mem (P : FSFile → Prop) :
    ∀ (gs : List (Nat × List FSFile)) (acc : List FSFile),
    (∀ f ∈ acc, P f) → (∀ g ∈ gs, ∀ x ∈ g.2, P x) →
    ∀ f ∈ gs.foldl
      (fun acc sfs => if sfs.2.length > 1 then acc ++ sfs.2 else acc) acc,
    P f := by
  intro gs
  induction gs with
  | nil =>
    intro acc hacc _ f hf
    exact hacc f hf
  | cons g t ih =>
    intro acc hacc hgs f hf
    rw [List.foldl_cons] at hf
    have hg0 : ∀ x ∈ g.2, P x := hgs g (List.mem_cons_self _ _)
    have hgs' : ∀ g' ∈ t, ∀ x ∈ g'.2, P x := fun g' hg' =>
      hgs g' (List.mem_cons_of_mem _ hg')
    by_cases hlen : g.2.length > 1
    · rw [if_pos hlen] at hf
      have hacc' : ∀ y ∈ acc ++ g.2, P y := by
        intro y hy
        rcases List.mem_append.mp hy with hy | hy
        · exact hacc y hy
        · exact hg0 y hy
      exact ih (acc ++ g.2) hacc' hgs' f hf
    · rw [if_neg hlen] at hf
      exact ih acc hacc hgs' f hf

theorem candidateFiles_mem (ext : Option PStr) (minSize : Nat)
    (walk : List FSFile) :
    ∀ f ∈ candidateFiles ext minSize walk, f ∈ walk :=
  candidateFiles_go_mem (fun f => f ∈ walk)
    (group_files_by_size ext minSize walk) []
    (by intro f hf; simp at hf)
    (group_files_by_size_mem ext minSize walk)

/-! ## Cache-elimination bridge

Under pairwise-distinct paths, each `calculate_full_hash` call leaves the
per-file full-hash oracle of every walked file unchanged, so a whole run
computes the same pairs as its cache-free counterpart with the oracle
induced by the starting cache. -/

theorem pathsNodup_inj (walk : List FSFile) (hnp : PathsNodup walk) :
    ∀ f ∈ walk, ∀ g ∈ walk, f.path = g.path → f = g :=
  List.inj_on_of_nodup_map hnp

theorem agrees_rfl (X : List Nat → Nat) (walk : List FSFile) (c : Cache) :
    Agrees X walk c c := fun _ _ => rfl

theorem agrees_step (X : List Nat → Nat) (walk : List FSFile)
    (hnp : PathsNodup walk) (c0 c : Cache) (f : FSFile) (hf : f ∈ walk)
    (ha : Agrees X walk c0 c) :
    Agrees X walk c0 (calculate_full_hash X c f).2 := by
  intro g hg
  by_cases hpg : g.path = f.path
  · have hgf : g = f := pathsNodup_inj walk hnp g hg f hf hpg
    subst hgf
    rw [cfh_snd_self]
    exact ha g hg
  · unfold fhR
    rw [cfh_snd_other X c f g.path (fun h => hpg h.symm)]
    exact ha g hg

theorem cfh_fst_agrees (X : List Nat → Nat) (walk : List FSFile)
    (c0 c : Cache) (f : FSFile) (hf : f ∈ walk) (ha : Agrees X walk c0 c) :
    (calculate_full_hash X c f).1 = fhR X c0 f := by
  rw [cfh_fst]
  exact ha f hf

theorem scanFullList_bridge (X : List Nat → Nat) (walk : List FSFile)
    (hnp : PathsNodup walk) (c0 : Cache) :
    ∀ (l : List FSFile) (c : Cache) (fh : List (Nat × FSFile)),
    (∀ f ∈ l, f ∈ walk) → Agrees X walk c0 c →
    (scanFullList X l c fh).1 = pureScanFull (fhR X c0) l fh
    ∧ Agrees X walk c0 (scanFullList X l c fh).2 := by
  intro l
  induction l with
  | nil =>
    intro c fh _ ha
    exact ⟨rfl, ha⟩
  | cons f t ih =>
    intro c fh hsub ha
    have hf : f ∈ walk := hsub f (List.mem_cons_self f t)
    have hsub' : ∀ g ∈ t, g ∈ walk := fun g hg => hsub g (List.mem_cons_of_mem f hg)
    have ha' := agrees_step X walk hnp c0 c f hf ha
    have hres := cfh_fst_agrees X walk c0 c f hf ha
    rcases hc : calculate_full_hash X c f with ⟨r, c1⟩
    have hr : r = fhR X c0 f := by rw [← hres, hc]
    have ha1 : Agrees X walk c0 c1 := by
      have := ha'
      rw [hc] at this
      exact this
    cases r with
    | none =>
      have hrec := ih c1 fh hsub' ha1
      constructor
      · simp only [scanFullList, hc]
        rw [hrec.1, pureScanFull, ← hr]
      · simp only [scanFullList, hc]
        exact hrec.2
    | some h =>
      cases hl : lookupA fh h with
      | some a =>
        have hrec := ih c1 (storeA fh h (anchorCompare f a).2) hsub' ha1
        constructor
        · simp only [scanFullList, hc, hl]
          rw [hrec.1]
          conv_rhs => rw [pureScanFull]
          rw [← hr]
          simp [hl]
        · simp only [scanFullList, hc, hl]
          exact hrec.2
      | none =>
        have hrec := ih c1 (storeA fh h f) hsub' ha1
        constructor
        · simp only [scanFullList, hc, hl]
          rw [hrec.1]
          conv_rhs => rw [pureScanFull]
          rw [← hr]
          simp [hl]
        · simp only [scanFullList, hc, hl]
          exact hrec.2

theorem scanQuickGroups_bridge (X : List Nat → Nat) (walk : List FSFile)
    (hnp : PathsNodup walk) (c0 : Cache) :
    ∀ (gs : List (Nat × List FSFile)) (c : Cache),
    (∀ g ∈ gs, ∀ f ∈ g.2, f ∈ walk) → Agrees X walk c0 c →
    (scanQuickGroups X gs c).1 = pureScanQuick (fhR X c0) gs
    ∧ Agrees X walk c0 (scanQuickGroups X gs c).2 := by
  intro gs
  induction gs with
  | nil =>
    intro c _ ha
    exact ⟨rfl, ha⟩
  | cons g t ih =>
    intro c hsub ha
    obtain ⟨q, fl⟩ := g
    have hflw : ∀ f ∈ fl, f ∈ walk := fun f hf =>
      hsub (q, fl) (List.mem_cons_self _ _) f hf
    have hsub' : ∀ g ∈ t, ∀ f ∈ g.2, f ∈ walk := fun g hg f hf =>
      hsub g (List.mem_cons_of_mem _ hg) f hf
    by_cases hlen : fl.length < 2
    · have hrec := ih c hsub' ha
      constructor
      · simp only [scanQuickGroups, if_pos hlen, pureScanQuick]
        exact hrec.1
      · simp only [scanQuickGroups, if_pos hlen]
        exact hrec.2
    · have hb := scanFullList_bridge X walk hnp c0 fl c [] hflw ha
      have hrec := ih (scanFullList X fl c []).2 hsub' hb.2
      constructor
      · simp only [scanQuickGroups, if_neg hlen, pureScanQuick]
        rw [hb.1, hrec.1]
      · simp only [scanQuickGroups, if_neg hlen]
        exact hrec.2

theorem scanSizeGroups_bridge (X : List Nat → Nat) (walk : List FSFile)
    (hnp : PathsNodup walk) (c0 : Cache) :
    ∀ (gs : List (Nat × List FSFile)) (c : Cache),
    (∀ g ∈ gs, ∀ f ∈ g.2, f ∈ walk) → Agrees X walk c0 c →
    (scanSizeGroups X gs c).1
      = pureScanSizes (calculate_quick_hash X) (fhR X c0) gs
    ∧ Agrees X walk c0 (scanSizeGroups X gs c).2 := by
  intro gs
  induction gs with
  | nil =>
    intro c _ ha
    exact ⟨rfl, ha⟩
  | cons g t ih =>
    intro c hsub ha
    obtain ⟨s, files⟩ := g
    have hfw : ∀ f ∈ files, f ∈ walk := fun f hf =>
      hsub (s, files) (List.mem_cons_self _ _) f hf
    have hsub' : ∀ g ∈ t, ∀ f ∈ g.2, f ∈ walk := fun g hg f hf =>
      hsub g (List.mem_cons_of_mem _ hg) f hf
    by_cases hlen : files.length < 2
    · have hrec := ih c hsub' ha
      constructor
      · simp only [scanSizeGroups, if_pos hlen, pureScanSizes]
        exact hrec.1
      · simp only [scanSizeGroups, if_pos hlen]
        exact hrec.2
    · have hqw : ∀ g ∈ quickGroupsR (calculate_quick_hash X) files,
          ∀ f ∈ g.2, f ∈ walk := by
        intro g hg f hf
        exact hfw f (quickGroupsR_mem (calculate_quick_hash X) files g hg f hf)
      have hb := scanQuickGroups_bridge X walk hnp c0
        (quickGroupsR (calculate_quick_hash X) files) c hqw ha
      have hrec := ih (scanQuickGroups X
        (quickGroupsR (calculate_quick_hash X) files) c).2 hsub' hb.2
      constructor
      · simp only [scanSizeGroups, if_neg hlen, pureScanSizes]
        rw [hb.1, hrec.1]
      · simp only [scanSizeGroups, if_neg hlen]
        exact hrec.2

theorem find_duplicates_bridge (X : List Nat → Nat) (ext : Option PStr)
    (minSize : Nat) (walk : List FSFile) (c0 : Cache)
    (hnp : PathsNodup walk) :
    (find_duplicates X ext minSize walk c0).1
      = pureScanSizes (calculate_quick_hash X) (fhR X c0)
          (group_files_by_size ext minSize walk)
    ∧ Agrees X walk c0 (find_duplicates X ext minSize walk c0).2 :=
  scanSizeGroups_bridge X walk hnp c0 (group_files_by_size ext minSize walk)
    c0 (group_files_by_size_mem ext minSize walk) (agrees_rfl X walk c0)

/-! ## Oracle congruence for the cache-free scanners -/

theorem pureScanFull_congr (R R' : FSFile → Option Nat) :
    ∀ (l : List FSFile) (fh : List (Nat × FSFile)),
    (∀ f ∈ l, R f = R' f) →
    pureScanFull R l fh = pureScanFull R' l fh := by
  intro l
  induction l with
  | nil => intro fh _; rfl
  | cons f t ih =>
    intro fh hR
    have hf := hR f (List.mem_cons_self _ _)
    have hR' : ∀ g ∈ t, R g = R' g := fun g hg => hR g (List.mem_cons_of_mem _ hg)
    cases hr : R' f with
    | none =>
      simp only [pureScanFull, hf, hr]
      exact ih fh hR'
    | some h =>
      cases hl : lookupA fh h with
      | some a =>
        simp only [pureScanFull, hf, hr, hl]
        rw [ih _ hR']
      | none =>
        simp only [pureScanFull, hf, hr, hl]
        exact ih _ hR'

theorem pureScanQuick_congr (R R' : FSFile → Option Nat) :
    ∀ (gs : List (Nat × List FSFile)),
    (∀ g ∈ gs, ∀ f ∈ g.2, R f = R' f) →
    pureScanQuick R gs = pureScanQuick R' gs := by
  intro gs
  induction gs with
  | nil => intro _; rfl
  | cons g t ih =>
    intro hR
    obtain ⟨q, fl⟩ := g
    have hfl : ∀ f ∈ fl, R f = R' f := fun f hf =>
      hR (q, fl) (List.mem_cons_self _ _) f hf
    have hR' : ∀ g ∈ t, ∀ f ∈ g.2, R f = R' f := fun g hg =>
      hR g (List.mem_cons_of_mem _ hg)
    by_cases hlen : fl.length < 2
    · simp only [pureScanQuick, if_pos hlen]
      exact ih hR'
    · simp only [pureScanQuick, if_neg hlen]
      rw [pureScanFull_congr R R' fl [] hfl, ih hR']

theorem pureScanSizes_congr (Q R R' : FSFile → Option Nat) :
    ∀ (gs : List (Nat × List FSFile)),
    (∀ g ∈ gs, ∀ f ∈ g.2, R f = R' f) →
    pureScanSizes Q R gs = pureScanSizes Q R' gs := by
  intro gs
  induction gs with
  | nil => intro _; rfl
  | cons g t ih =>
    intro hR
    obtain ⟨s, files⟩ := g
    have hfl : ∀ f ∈ files, R f = R' f := fun f hf =>
      hR (s, files) (List.mem_cons_self _ _) f hf
    have hR' : ∀ g ∈ t, ∀ f ∈ g.2, R f = R' f := fun g hg =>
      hR g (List.mem_cons_of_mem _ hg)
    by_cases hlen : files.length < 2
    · simp only [pureScanSizes, if_pos hlen]
      exact ih hR'
    · simp only [pureScanSizes, if_neg hlen]
      rw [pureScanQuick_congr R R' _ (fun g hg f hf =>
        hfl f (quickGroupsR_mem Q files g hg f hf)), ih hR']

/-! ## Claim C9 -/

/-- C9.  Running `find_duplicates` a second time on the same unmodified
walk, starting from the cache the first run saved, produces exactly the
same list of `(duplicate, original)` pairs — whatever the cache held before
the first run (the second run may satisfy every lookup from the cache, but
each entry the first run trusted or wrote induces the same per-file hash
oracle, so the pairs coincide; with identical enumeration order the lists,
and hence the sets, are identical). -/
theorem C9_find_duplicates_idempotent (X : List Nat → Nat)
    (ext : Option PStr) (minSize : Nat) (walk : List FSFile) (c0 : Cache)
    (hnp : PathsNodup walk) :
    (find_duplicates X ext minSize walk
        ((find_duplicates X ext minSize walk c0).2)).1
      = (find_duplicates X ext minSize walk c0).1 := by
  obtain ⟨e1, ha⟩ := find_duplicates_bridge X ext minSize walk c0 hnp
  obtain ⟨e2, _⟩ := find_duplicates_bridge X ext minSize walk
    (find_duplicates X ext minSize walk c0).2 hnp
  rw [e2, e1]
  apply pureScanSizes_congr
  intro g hg f hf
  exact ha f (group_files_by_size_mem ext minSize walk g hg f hf)

/-- Witness for C9: a walk with two duplicates and one odd file, scanned
from the empty cache and rescanned from the saved cache. -/
theorem C9_find_duplicates_idempotent_witness :
    (find_duplicates Xc none 0 [wa, wb, wc]
        ((find_duplicates Xc none 0 [wa, wb, wc] []).2)).1
      = (find_duplicates Xc none 0 [wa, wb, wc] []).1 :=
  C9_find_duplicates_idempotent Xc none 0 [wa, wb, wc] []
    (by unfold PathsNodup; decide)

/-! ## Cache-elimination bridge for the streaming scanner -/

theorem anchorCompare_snd_cases (f a : FSFile) :
    (anchorCompare f a).2 = f ∨ (anchorCompare f a).2 = a := by
  unfold anchorCompare
  by_cases h : lexLt (pyLower f.dir) (pyLower a.dir) = true
  · simp [h]
  · simp [h]

theorem lookupB_files (P : FSFile → Prop) :
    ∀ (bks : Buckets), (∀ p ∈ bks, ∀ a ∈ p.2, P a.file) →
    ∀ q, ∀ a ∈ lookupB bks q, P a.file := by
  intro bks
  induction bks with
  | nil => intro _ q a ha; simp [lookupB] at ha
  | cons p t ih =>
    intro hb q a ha
    obtain ⟨k, ans⟩ := p
    by_cases hk : k = q
    · rw [lookupB, if_pos hk] at ha
      exact hb (k, ans) (List.mem_cons_self _ _) a ha
    · rw [lookupB, if_neg hk] at ha
      exact ih (fun p hp => hb p (List.mem_cons_of_mem _ hp)) q a ha

theorem storeB_files (P : FSFile → Prop) :
    ∀ (bks : Buckets) (q : Nat) (ans : List Anchor),
    (∀ p ∈ bks, ∀ a ∈ p.2, P a.file) → (∀ a ∈ ans, P a.file) →
    ∀ p ∈ storeB bks q ans, ∀ a ∈ p.2, P a.file := by
  intro bks
  induction bks with
  | nil =>
    intro q ans _ hans p hp a ha
    simp only [storeB, List.mem_singleton] at hp
    subst hp
    exact hans a ha
  | cons e t ih =>
    intro q ans hb hans p hp a ha
    obtain ⟨k, bs⟩ := e
    by_cases hk : k = q
    · rw [storeB, if_pos hk] at hp
      rcases List.mem_cons.mp hp with hp | hp
      · subst hp
        exact hans a ha
      · exact hb p (List.mem_cons_of_mem _ hp) a ha
    · rw [storeB, if_neg hk] at hp
      rcases List.mem_cons.mp hp with hp | hp
      · subst hp
        exact hb (k, bs) (List.mem_cons_self _ _) a ha
      · exact ih q ans (fun p' hp' => hb p' (List.mem_cons_of_mem _ hp')) hans
          p hp a ha

theorem pureStreamMatch_files (P : FSFile → Prop) (R : FSFile → Option Nat)
    (f : FSFile) (hf : P f) :
    ∀ (ans : List Anchor), (∀ a ∈ ans, P a.file) →
    ∀ a' ∈ (pureStreamMatch R ans f).1, P a'.file := by
  intro ans
  induction ans with
  | nil => intro _ a' ha'; simp [pureStreamMatch] at ha'
  | cons a t ih =>
    intro hans a' ha'
    have hPa : P a.file := hans a (List.mem_cons_self _ _)
    have hans' : ∀ b ∈ t, P b.file := fun b hb => hans b (List.mem_cons_of_mem _ hb)
    by_cases hc : R f = (match a.full with
      | some h => some h
      | none => R a.file)
    · simp only [pureStreamMatch, if_pos hc] at ha'
      rcases List.mem_cons.mp ha' with ha' | ha'
      · subst ha'
        rcases anchorCompare_snd_cases f a.file with h | h <;> rw [h]
        · exact hf
        · exact hPa
      · exact hans' a' ha'
    · simp only [pureStreamMatch, if_neg hc] at ha'
      rcases List.mem_cons.mp ha' with ha' | ha'
      · subst ha'
        exact hPa
      · exact ih hans' a' ha'

theorem streamMatch_bridge (X : List Nat → Nat) (walk : List FSFile)
    (hnp : PathsNodup walk) (c0 : Cache) :
    ∀ (ans : List Anchor) (c : Cache) (f : FSFile),
    f ∈ walk → (∀ a ∈ ans, a.file ∈ walk) → Agrees X walk c0 c →
    (streamMatch X ans c f).1 = (pureStreamMatch (fhR X c0) ans f).1
    ∧ (streamMatch X ans c f).2.1 = (pureStreamMatch (fhR X c0) ans f).2
    ∧ Agrees X walk c0 (streamMatch X ans c f).2.2 := by
  intro ans
  induction ans with
  | nil =>
    intro c f _ _ ha
    exact ⟨rfl, rfl, ha⟩
  | cons a t ih =>
    intro c f hf hans ha
    have hafw : a.file ∈ walk := hans a (List.mem_cons_self _ _)
    have hans' : ∀ b ∈ t, b.file ∈ walk := fun b hb =>
      hans b (List.mem_cons_of_mem _ hb)
    cases hfull : a.full with
    | some h =>
      have hcur1 : (calculate_full_hash X c f).1 = fhR X c0 f :=
        cfh_fst_agrees X walk c0 c f hf ha
      have hacur : Agrees X walk c0 (calculate_full_hash X c f).2 :=
        agrees_step X walk hnp c0 c f hf ha
      by_cases hc : fhR X c0 f = some h
      · have hcc : (calculate_full_hash X c f).1 = some h := by rw [hcur1, hc]
        refine ⟨?_, ?_, ?_⟩
        · simp [streamMatch, pureStreamMatch, hfull, hcc, hc]
        · simp [streamMatch, pureStreamMatch, hfull, hcc, hc]
        · simp only [streamMatch, hfull]
          rw [if_pos hcc]
          exact hacur
      · have hcc : ¬ (calculate_full_hash X c f).1 = some h := by
          rw [hcur1]; exact hc
        have hrec := ih (calculate_full_hash X c f).2 f hf hans' hacur
        refine ⟨?_, ?_, ?_⟩
        · simp only [streamMatch, pureStreamMatch, hfull]
          rw [if_neg hcc, if_neg hc, hrec.1]
        · simp only [streamMatch, pureStreamMatch, hfull]
          rw [if_neg hcc, if_neg hc]
          exact hrec.2.1
        · simp only [streamMatch, hfull]
          rw [if_neg hcc]
          exact hrec.2.2
    | none =>
      have hfill1 : (calculate_full_hash X c a.file).1 = fhR X c0 a.file :=
        cfh_fst_agrees X walk c0 c a.file hafw ha
      have hafill : Agrees X walk c0 (calculate_full_hash X c a.file).2 :=
        agrees_step X walk hnp c0 c a.file hafw ha
      have hcur1 : (calculate_full_hash X (calculate_full_hash X c a.file).2 f).1
          = fhR X c0 f :=
        cfh_fst_agrees X walk c0 _ f hf hafill
      have hacur : Agrees X walk c0
          (calculate_full_hash X (calculate_full_hash X c a.file).2 f).2 :=
        agrees_step X walk hnp c0 _ f hf hafill
      by_cases hc : fhR X c0 f = fhR X c0 a.file
      · have hcc : (calculate_full_hash X (calculate_full_hash X c a.file).2 f).1
            = (calculate_full_hash X c a.file).1 := by
          rw [hcur1, hfill1, hc]
        refine ⟨?_, ?_, ?_⟩
        · simp only [streamMatch, pureStreamMatch, hfull]
          rw [if_pos hcc, if_pos hc, hfill1]
        · simp only [streamMatch, pureStreamMatch, hfull]
          rw [if_pos hcc, if_pos hc]
        · simp only [streamMatch, hfull]
          rw [if_pos hcc]
          exact hacur
      · have hcc : ¬ (calculate_full_hash X (calculate_full_hash X c a.file).2 f).1
            = (calculate_full_hash X c a.file).1 := by
          rw [hcur1, hfill1]; exact hc
        have hrec := ih (calculate_full_hash X (calculate_full_hash X c a.file).2 f).2
          f hf hans' hacur
        refine ⟨?_, ?_, ?_⟩
        · simp only [streamMatch, pureStreamMatch, hfull]
          rw [if_neg hcc, if_neg hc, hrec.1, hfill1]
        · simp only [streamMatch, pureStreamMatch, hfull]
          rw [if_neg hcc, if_neg hc]
          exact hrec.2.1
        · simp only [streamMatch, hfull]
          rw [if_neg hcc]
          exact hrec.2.2

/-- The post-bucket anchor list written back by one streaming step. -/
def stepAns (X : List Nat → Nat) (st : StState) (f : FSFile) (q : Nat) :
    List Anchor :=
  match (streamMatch X (lookupB st.buckets q) st.cache f).2.1 with
  | some _ => (streamMatch X (lookupB st.buckets q) st.cache f).1
  | none => (streamMatch X (lookupB st.buckets q) st.cache f).1
      ++ [⟨f, none⟩]

theorem streamStep_eq (X : List Nat → Nat) (st : StState) (f : FSFile)
    (q : Nat) (hq : calculate_quick_hash X f = some q) :
    streamStep X st f
      = (SEvent.step f (streamMatch X (lookupB st.buckets q) st.cache f).2.1
            (st.processed + 1)
          :: (if (st.processed + 1) % 50 = 0
              then [SEvent.flushEv
                (streamMatch X (lookupB st.buckets q) st.cache f).2.2]
              else []),
         { cache := (streamMatch X (lookupB st.buckets q) st.cache f).2.2
           buckets := storeB st.buckets q (stepAns X st f q)
           processed := st.processed + 1
           dups := st.dups +
             (if (streamMatch X (lookupB st.buckets q) st.cache f).2.1.isSome
              then 1 else 0) }) := by
  by_cases h50 : (st.processed + 1) % 50 = 0
  · simp [streamStep, stepAns, hq, h50]
  · simp [streamStep, stepAns, hq, h50]

theorem filterMap_step_cons (f : FSFile) (pr : Option (FSFile × FSFile))
    (n : Nat) (evs : List SEvent) :
    List.filterMap
      (fun e =>
        match e with
        | SEvent.step _ found _ => found
        | _ => none) (SEvent.step f pr n :: evs)
      = pr.toList ++ List.filterMap
          (fun e =>
            match e with
            | SEvent.step _ found _ => found
            | _ => none) evs := by
  cases pr <;> simp [List.filterMap_cons]

theorem streamLoop_pairs_bridge (X : List Nat → Nat) (walk : List FSFile)
    (hnp : PathsNodup walk) (c0 : Cache) :
    ∀ (l : List FSFile) (st : StState),
    (∀ f ∈ l, f ∈ walk) →
    (∀ p ∈ st.buckets, ∀ a ∈ p.2, a.file ∈ walk) →
    Agrees X walk c0 st.cache →
    streamPairs (streamLoop X (fun _ => false) l st).1
      = pureStreamGo (calculate_quick_hash X) (fhR X c0) l st.buckets := by
  intro l
  induction l with
  | nil =>
    intro st _ _ _
    simp [streamLoop, streamPairs, pureStreamGo]
  | cons f t ih =>
    intro st hl hbk ha
    have hf : f ∈ walk := hl f (List.mem_cons_self _ _)
    have hl' : ∀ g ∈ t, g ∈ walk := fun g hg => hl g (List.mem_cons_of_mem _ hg)
    rw [streamLoop]
    simp only [Bool.false_eq_true, if_false, reduceIte]
    unfold streamPairs
    rw [List.filterMap_append]
    cases hq : calculate_quick_hash X f with
    | none =>
      have hstep : streamStep X st f
          = ([SEvent.step f none (st.processed + 1)],
             { st with processed := st.processed + 1 }) := by
        rw [streamStep, hq]
      rw [hstep]
      have hrec := ih { st with processed := st.processed + 1 } hl' hbk ha
      unfold streamPairs at hrec
      rw [pureStreamGo, hq]
      simpa using hrec
    | some q =>
      have hmb := streamMatch_bridge X walk hnp c0 (lookupB st.buckets q)
        st.cache f hf (lookupB_files (fun g => g ∈ walk) st.buckets hbk q) ha
      have hansw : ∀ a ∈ (streamMatch X (lookupB st.buckets q) st.cache f).1,
          a.file ∈ walk := by
        rw [hmb.1]
        exact pureStreamMatch_files (fun g => g ∈ walk) (fhR X c0) f hf
          (lookupB st.buckets q)
          (lookupB_files (fun g => g ∈ walk) st.buckets hbk q)
      have hstans : ∀ a ∈ stepAns X st f q, a.file ∈ walk := by
        unfold stepAns
        cases hpr : (streamMatch X (lookupB st.buckets q) st.cache f).2.1
        · intro a hamem
          rcases List.mem_append.mp hamem with hx | hx
          · exact hansw a hx
          · simp at hx
            rw [hx]
            exact hf
        · exact hansw
      rw [streamStep_eq X st f q hq]
      have hbks' : ∀ p ∈ storeB st.buckets q (stepAns X st f q),
          ∀ a ∈ p.2, a.file ∈ walk :=
        storeB_files (fun g => g ∈ walk) st.buckets q _ hbk hstans
      have hc2 : Agrees X walk c0
          (streamMatch X (lookupB st.buckets q) st.cache f).2.2 := hmb.2.2
      have hrec := ih
        { cache := (streamMatch X (lookupB st.buckets q) st.cache f).2.2
          buckets := storeB st.buckets q (stepAns X st f q)
          processed := st.processed + 1
          dups := st.dups +
            (if (streamMatch X (lookupB st.buckets q) st.cache f).2.1.isSome
             then 1 else 0) } hl' hbks' hc2
      unfold streamPairs at hrec
      have hflushpairs : List.filterMap
          (fun e =>
            match e with
            | SEvent.step _ found _ => found
            | _ => none)
          (if (st.processed + 1) % 50 = 0
           then [SEvent.flushEv
             (streamMatch X (lookupB st.buckets q) st.cache f).2.2]
           else []) = [] := by
        by_cases h50 : (st.processed + 1) % 50 = 0
        · rw [if_pos h50]
          simp [List.filterMap]
        · rw [if_neg h50]
          rfl
      rw [filterMap_step_cons, hflushpairs, hrec]
      rw [pureStreamGo, hq]
      simp only [← hmb.1, ← hmb.2.1, stepAns]
      cases hpr : (streamMatch X (lookupB st.buckets q) st.cache f).2.1 <;>
        simp [hpr]

/-- The full streaming scanner computes, as its reported pairs, the
cache-free streaming fold with the oracle induced by the starting cache. -/
theorem find_duplicates_stream_pairs_bridge (X : List Nat → Nat)
    (ext : Option PStr) (minSize : Nat) (walk : List FSFile) (c0 : Cache)
    (hnp : PathsNodup walk) :
    streamPairs (find_duplicates_stream X ext minSize walk c0
        (fun _ => false)).1
      = pureStreamGo (calculate_quick_hash X) (fhR X c0)
          (candidateFiles ext minSize walk) [] := by
  dsimp only [find_duplicates_stream]
  have := streamLoop_pairs_bridge X walk hnp c0
    (candidateFiles ext minSize walk) ⟨c0, [], 0, 0⟩
    (candidateFiles_mem ext minSize walk)
    (by intro p hp; simp at hp)
    (agrees_rfl X walk c0)
  unfold streamPairs at this ⊢
  simpa using this

/-! ## Content classes

Pairs are compared by full-hash value.  When the hash does not collide
against a target content `c`, the pairs whose original has content `c` are
exactly the evolving-anchor pairs of the class of content-`c` files, in
both scanners.  The lemmas below are all relative to one target content
`c`, so only collision-freeness *against `c`* is ever assumed. -/

theorem fhR_shape (X : List Nat → Nat) (walk : List FSFile) (c0 : Cache)
    (hcc : CacheConsistent X walk c0) :
    ∀ f ∈ walk, fhR X c0 f = none ∨ fhR X c0 f = some (X f.content) := by
  intro f hf
  unfold fhR fhPure
  cases hm : f.mtimeOk
  · simp
  · cases hl : lookupC c0 f.path
    · cases hfo : f.fullOk <;> simp
    · rename_i mh
      obtain ⟨m, h⟩ := mh
      by_cases hme : m = f.mtime
      · right
        have := hcc f hf m h hl hme
        simp [hme, this]
      · cases hfo : f.fullOk <;> simp [hme, hfo]

theorem fhR_success (X : List Nat → Nat) (walk : List FSFile) (c0 : Cache)
    (hcc : CacheConsistent X walk c0) (f : FSFile) (hf : f ∈ walk)
    (hm : f.mtimeOk = true) (hfo : f.fullOk = true) :
    fhR X c0 f = some (X f.content) := by
  unfold fhR fhPure
  cases hl : lookupC c0 f.path
  · simp [hm, hfo]
  · rename_i mh
    obtain ⟨m, h⟩ := mh
    by_cases hme : m = f.mtime
    · have := hcc f hf m h hl hme
      simp [hm, hme, this]
    · simp [hm, hme, hfo]

theorem lookupA_storeA :
    ∀ (fh : List (Nat × FSFile)) (h : Nat) (a : FSFile) (k : Nat),
    lookupA (storeA fh h a) k = if h = k then some a else lookupA fh k := by
  intro fh
  induction fh with
  | nil =>
    intro h a k
    by_cases hk : h = k <;> simp [storeA, lookupA, hk]
  | cons e t ih =>
    intro h a k
    obtain ⟨k', b⟩ := e
    by_cases he : k' = h
    · subst he
      by_cases hk : k' = k
      · subst hk
        simp [storeA, lookupA]
      · simp [storeA, lookupA, hk]
    · by_cases hk : k' = k
      · subst hk
        have hne : ¬ h = k' := fun hcon => he hcon.symm
        simp [storeA, lookupA, he, hne]
      · simp [storeA, lookupA, he, hk, ih]

theorem classPairs_anchor_length (a : FSFile) :
    ∀ (l : List FSFile), (classPairs (some a) l).length = l.length := by
  intro l
  induction l generalizing a with
  | nil => rfl
  | cons f t ih => simp [classPairs, ih]

theorem classPairs_none_length :
    ∀ (l : List FSFile), (classPairs none l).length = l.length - 1 := by
  intro l
  cases l with
  | nil => rfl
  | cons f t => simp [classPairs, classPairs_anchor_length]

theorem classPairs_none_short (l : List FSFile) (h : l.length ≤ 1) :
    classPairs none l = [] := by
  cases l with
  | nil => rfl
  | cons f t =>
    cases t with
    | nil => rfl
    | cons g u => simp at h

theorem lookupA_mem :
    ∀ (fh : List (Nat × FSFile)) (k : Nat) (a : FSFile),
    lookupA fh k = some a → (k, a) ∈ fh := by
  intro fh
  induction fh with
  | nil => intro k a h; simp [lookupA] at h
  | cons e t ih =>
    intro k a h
    obtain ⟨k', b⟩ := e
    by_cases hk : k' = k
    · subst hk
      rw [lookupA, if_pos rfl] at h
      have hb : b = a := Option.some.inj h
      subst hb
      exact List.mem_cons_self _ _
    · rw [lookupA, if_neg hk] at h
      exact List.mem_cons_of_mem _ (ih k a h)

theorem storeA_inv (P : Nat × FSFile → Prop) :
    ∀ (fh : List (Nat × FSFile)) (h : Nat) (a : FSFile),
    (∀ p ∈ fh, P p) → P (h, a) →
    ∀ p ∈ storeA fh h a, P p := by
  intro fh
  induction fh with
  | nil =>
    intro h a _ hP p hp
    simp only [storeA, List.mem_singleton] at hp
    subst hp
    exact hP
  | cons e t ih =>
    intro h a hfh hP p hp
    obtain ⟨k, b⟩ := e
    by_cases hk : k = h
    · rw [storeA, if_pos hk] at hp
      rcases List.mem_cons.mp hp with hp | hp
      · subst hp
        exact hP
      · exact hfh p (List.mem_cons_of_mem _ hp)
    · rw [storeA, if_neg hk] at hp
      rcases List.mem_cons.mp hp with hp | hp
      · subst hp
        exact hfh (k, b) (List.mem_cons_self _ _)
      · exact ih h a (fun p' hp' => hfh p' (List.mem_cons_of_mem _ hp')) hP p hp

theorem anchorCompare_orig_cases (f a : FSFile) :
    (anchorCompare f a).1.2 = f ∨ (anchorCompare f a).1.2 = a := by
  unfold anchorCompare
  by_cases h : lexLt (pyLower f.dir) (pyLower a.dir) = true
  · simp [h]
  · simp [h]

/-- Filtered view of one quick-hash bucket scan of `find_duplicates`
(cache-free form): relative to a target content `c` that the hash does not
collide against, the emitted pairs whose original has content `c` are the
evolving-anchor pairs of the bucket's content-`c` files, seeded with the
`full_hashes` entry for `X c`. -/
theorem pureScanFull_class (X : List Nat → Nat) (R : FSFile → Option Nat)
    (c : List Nat) :
    ∀ (fl : List FSFile) (fh : List (Nat × FSFile)),
    (∀ f ∈ fl, R f = none ∨ R f = some (X f.content)) →
    (∀ f ∈ fl, f.content = c → R f = some (X f.content)) →
    (∀ f ∈ fl, X f.content = X c → f.content = c) →
    (∀ p ∈ fh, p.1 = X p.2.content) →
    (∀ p ∈ fh, X p.2.content = X c → p.2.content = c) →
    (pureScanFull R fl fh).filter (fun p => decide (p.2.content = c))
      = classPairs (lookupA fh (X c))
          (fl.filter (fun f => decide (f.content = c))) := by
  intro fl
  induction fl with
  | nil =>
    intro fh _ _ _ _ _
    simp [pureScanFull, classPairs]
  | cons f t ih =>
    intro fh hshape hcls hinj hfh hfhc
    have hshape' := fun g hg => hshape g (List.mem_cons_of_mem f hg)
    have hcls' := fun g hg => hcls g (List.mem_cons_of_mem f hg)
    have hinj' := fun g hg => hinj g (List.mem_cons_of_mem f hg)
    rcases hshape f (List.mem_cons_self f t) with hRf | hRf
    · -- the file's full hash failed: skipped, and it is not a class file
      have hfc : ¬ f.content = c := by
        intro hc
        have := hcls f (List.mem_cons_self f t) hc
        rw [hRf] at this
        exact Option.noConfusion this
      simp only [pureScanFull, hRf]
      rw [ih fh hshape' hcls' hinj' hfh hfhc]
      congr 1
      rw [List.filter_cons]
      simp [hfc]
    · by_cases hfc : f.content = c
      · -- a class file (necessarily keyed under X c)
        have hkey : X f.content = X c := by rw [hfc]
        cases hl : lookupA fh (X c) with
        | none =>
          have hl' : lookupA fh (X f.content) = none := by rw [hkey, hl]
          simp only [pureScanFull, hRf, hl']
          have hfh2 : ∀ p ∈ storeA fh (X f.content) f, p.1 = X p.2.content :=
            storeA_inv _ fh _ f hfh rfl
          have hfhc2 : ∀ p ∈ storeA fh (X f.content) f,
              X p.2.content = X c → p.2.content = c :=
            storeA_inv _ fh _ f hfhc (fun _ => hfc)
          rw [ih (storeA fh (X f.content) f) hshape' hcls' hinj' hfh2 hfhc2]
          rw [lookupA_storeA, if_pos hkey]
          rw [List.filter_cons, if_pos (by simp [hfc])]
          rw [classPairs]
        | some a =>
          have hl' : lookupA fh (X f.content) = some a := by rw [hkey, hl]
          have hmem : (X c, a) ∈ fh := lookupA_mem fh (X c) a hl
          have haX : X c = X a.content := hfh (X c, a) hmem
          have hac : a.content = c := hfhc (X c, a) hmem haX.symm
          have horig : (anchorCompare f a).1.2.content = c := by
            rcases anchorCompare_orig_cases f a with h | h <;> rw [h]
            · exact hfc
            · exact hac
          have hwin : (anchorCompare f a).2.content = c := by
            rcases anchorCompare_snd_cases f a with h | h <;> rw [h]
            · exact hfc
            · exact hac
          simp only [pureScanFull, hRf, hl']
          have hfh2 : ∀ p ∈ storeA fh (X f.content) (anchorCompare f a).2,
              p.1 = X p.2.content :=
            storeA_inv _ fh _ _ hfh (by rw [hwin, hfc])
          have hfhc2 : ∀ p ∈ storeA fh (X f.content) (anchorCompare f a).2,
              X p.2.content = X c → p.2.content = c :=
            storeA_inv _ fh _ _ hfhc (fun _ => hwin)
          rw [List.filter_cons, if_pos (by simp [horig])]
          rw [ih _ hshape' hcls' hinj' hfh2 hfhc2]
          rw [lookupA_storeA, if_pos hkey]
          rw [List.filter_cons, if_pos (by simp [hfc])]
          rw [classPairs]
      · -- a successfully hashed file of another content
        have hXne : ¬ X f.content = X c := fun h =>
          hfc (hinj f (List.mem_cons_self f t) h)
        cases hl : lookupA fh (X f.content) with
        | none =>
          simp only [pureScanFull, hRf, hl]
          have hfh2 : ∀ p ∈ storeA fh (X f.content) f, p.1 = X p.2.content :=
            storeA_inv _ fh _ f hfh rfl
          have hfhc2 : ∀ p ∈ storeA fh (X f.content) f,
              X p.2.content = X c → p.2.content = c :=
            storeA_inv _ fh _ f hfhc (fun h => absurd h hXne)
          rw [ih (storeA fh (X f.content) f) hshape' hcls' hinj' hfh2 hfhc2]
          rw [lookupA_storeA, if_neg hXne]
          congr 1
          rw [List.filter_cons]
          simp [hfc]
        | some a =>
          have hmem : (X f.content, a) ∈ fh := lookupA_mem fh _ a hl
          have haX : X f.content = X a.content := hfh (X f.content, a) hmem
          have hanc : ¬ a.content = c := by
            intro hceq
            exact hXne (by rw [haX, hceq])
          have horig : ¬ (anchorCompare f a).1.2.content = c := by
            rcases anchorCompare_orig_cases f a with h | h <;> rw [h]
            · exact hfc
            · exact hanc
          have hwinX : X f.content = X (anchorCompare f a).2.content := by
            rcases anchorCompare_snd_cases f a with h | h <;> rw [h]
            · exact haX
          have hwinc : ∀ h : X (anchorCompare f a).2.content = X c,
              (anchorCompare f a).2.content = c := by
            intro h
            exact absurd (by rw [hwinX, h] : X f.content = X c) hXne
          simp only [pureScanFull, hRf, hl]
          rw [List.filter_cons, if_neg (by simp [horig])]
          have hfh2 : ∀ p ∈ storeA fh (X f.content) (anchorCompare f a).2,
              p.1 = X p.2.content :=
            storeA_inv _ fh _ _ hfh hwinX
          have hfhc2 : ∀ p ∈ storeA fh (X f.content) (anchorCompare f a).2,
              X p.2.content = X c → p.2.content = c :=
            storeA_inv _ fh _ _ hfhc hwinc
          rw [ih _ hshape' hcls' hinj' hfh2 hfhc2]
          rw [lookupA_storeA, if_neg hXne]
          congr 1
          rw [List.filter_cons]
          simp [hfc]

/-! ## Structure of the grouping passes -/

/-- Association-list read with empty default (used to reason about the
bucket an element ends up in). -/
def lookupG : List (Nat × List FSFile) → Nat → List FSFile
  | [], _ => []
  | (k, fs) :: t, q => if k = q then fs else lookupG t q

theorem lookupG_not_mem :
    ∀ (d : List (Nat × List FSFile)) (q : Nat),
    ¬ q ∈ d.map Prod.fst → lookupG d q = [] := by
  intro d
  induction d with
  | nil => intro q _; rfl
  | cons e t ih =>
    intro q hq
    obtain ⟨k, fs⟩ := e
    have hk : ¬ k = q := by
      intro h
      exact hq (by simp [h])
    rw [lookupG, if_neg hk]
    exact ih q (fun h => hq (by simp [h]))

theorem addQuick_lookupG :
    ∀ (d : List (Nat × List FSFile)) (q : Nat) (f : FSFile) (k : Nat),
    lookupG (addQuick d q f) k
      = if q = k then lookupG d k ++ [f] else lookupG d k := by
  intro d
  induction d with
  | nil =>
    intro q f k
    by_cases hk : q = k <;> simp [addQuick, lookupG, hk]
  | cons e t ih =>
    intro q f k
    obtain ⟨k', fs⟩ := e
    by_cases he : k' = q
    · subst he
      by_cases hk : k' = k
      · subst hk
        simp [addQuick, lookupG]
      · have hqk : ¬ k' = k := hk
        simp [addQuick, lookupG, hqk]
    · by_cases hk : k' = k
      · subst hk
        have hqk : ¬ q = k' := fun h => he h.symm
        simp [addQuick, lookupG, he, hqk]
      · simp [addQuick, lookupG, he, hk, ih]

theorem quickGroupsR_char (Q : FSFile → Option Nat) :
    ∀ (files : List FSFile) (acc : List (Nat × List FSFile)) (k : Nat),
    lookupG (files.foldl
      (fun d f =>
        match Q f with
        | none => d
        | some q => addQuick d q f) acc) k
      = lookupG acc k ++ files.filter (fun f => decide (Q f = some k)) := by
  intro files
  induction files with
  | nil => intro acc k; simp
  | cons f t ih =>
    intro acc k
    rw [List.foldl_cons]
    cases hq : Q f with
    | none =>
      rw [ih acc k, List.filter_cons]
      simp [hq]
    | some q =>
      rw [ih (addQuick acc q f) k, addQuick_lookupG, List.filter_cons]
      by_cases hk : q = k
      · subst hk
        simp [hq]
      · have : ¬ Q f = some k := by
          rw [hq]
          intro hcon
          exact hk (Option.some.inj hcon)
        simp [hq, hk, this]

theorem addQuick_keys (q : Nat) (f : FSFile) :
    ∀ (d : List (Nat × List FSFile)),
    (addQuick d q f).map Prod.fst
      = if q ∈ d.map Prod.fst then d.map Prod.fst
        else d.map Prod.fst ++ [q] := by
  intro d
  induction d with
  | nil => simp [addQuick]
  | cons e t ih =>
    obtain ⟨k, fs⟩ := e
    by_cases hk : k = q
    · subst hk
      simp [addQuick]
    · have hne : ¬ q = k := fun h => hk h.symm
      rw [addQuick, if_neg hk]
      by_cases hmem : q ∈ t.map Prod.fst
      · simp [ih, hmem, hne]
      · simp [ih, hmem, hne]

theorem quickGroupsR_keys_nodup (Q : FSFile → Option Nat) :
    ∀ (files : List FSFile) (acc : List (Nat × List FSFile)),
    (acc.map Prod.fst).Nodup →
    ((files.foldl
      (fun d f =>
        match Q f with
        | none => d
        | some q => addQuick d q f) acc).map Prod.fst).Nodup := by
  intro files
  induction files with
  | nil => intro acc h; exact h
  | cons f t ih =>
    intro acc h
    rw [List.foldl_cons]
    cases hq : Q f with
    | none => exact ih acc h
    | some q =>
      apply ih
      rw [addQuick_keys]
      by_cases hmem : q ∈ acc.map Prod.fst
      · rw [if_pos hmem]
        exact h
      · rw [if_neg hmem]
        simp [List.nodup_append, h, hmem]

theorem addQuick_keyed (Q : FSFile → Option Nat) (q : Nat) (x : FSFile)
    (hx : Q x = some q) :
    ∀ (d : List (Nat × List FSFile)),
    (∀ g ∈ d, ∀ f ∈ g.2, Q f = some g.1) →
    ∀ g ∈ addQuick d q x, ∀ f ∈ g.2, Q f = some g.1 := by
  intro d
  induction d with
  | nil =>
    intro _ g hg f hf
    simp only [addQuick, List.mem_singleton] at hg
    subst hg
    simp at hf
    rw [hf]
    exact hx
  | cons e t ih =>
    intro hd g hg f hf
    obtain ⟨k, fs⟩ := e
    by_cases hk : k = q
    · rw [addQuick, if_pos hk] at hg
      rcases List.mem_cons.mp hg with hg | hg
      · subst hg
        rcases List.mem_append.mp hf with hf | hf
        · exact hd (k, fs) (List.mem_cons_self _ _) f hf
        · simp at hf
          subst hf
          rw [hx, hk]
      · exact hd g (List.mem_cons_of_mem _ hg) f hf
    · rw [addQuick, if_neg hk] at hg
      rcases List.mem_cons.mp hg with hg | hg
      · subst hg
        exact hd (k, fs) (List.mem_cons_self _ _) f hf
      · exact ih (fun g' hg' => hd g' (List.mem_cons_of_mem _ hg')) g hg f hf

theorem quickGroupsR_keyed (Q : FSFile → Option Nat) :
    ∀ (files : List FSFile) (acc : List (Nat × List FSFile)),
    (∀ g ∈ acc, ∀ f ∈ g.2, Q f = some g.1) →
    ∀ g ∈ files.foldl
      (fun d f =>
        match Q f with
        | none => d
        | some q => addQuick d q f) acc,
    ∀ f ∈ g.2, Q f = some g.1 := by
  intro files
  induction files with
  | nil => intro acc hacc g hg f hf; exact hacc g hg f hf
  | cons f t ih =>
    intro acc hacc g hg x hx
    rw [List.foldl_cons] at hg
    cases hq : Q f with
    | none =>
      rw [hq] at hg
      exact ih acc hacc g hg x hx
    | some q =>
      rw [hq] at hg
      exact ih (addQuick acc q f) (addQuick_keyed Q q f hq acc hacc) g hg x hx

/-- Filtered view of one size group's scan in `find_duplicates` (cache-free
form): relative to target content `c`, the class pairs of the group come
from the single bucket keyed `X (c.take sampleSize)`, and every other
bucket contributes none. -/
theorem pureScanQuick_class (X : List Nat → Nat) (R : FSFile → Option Nat)
    (c : List Nat) :
    ∀ (gs : List (Nat × List FSFile)),
    ((gs.map Prod.fst).Nodup) →
    (∀ g ∈ gs, ∀ f ∈ g.2, calculate_quick_hash X f = some g.1) →
    (∀ g ∈ gs, ∀ f ∈ g.2, R f = none ∨ R f = some (X f.content)) →
    (∀ g ∈ gs, ∀ f ∈ g.2, f.content = c → R f = some (X f.content)) →
    (∀ g ∈ gs, ∀ f ∈ g.2, X f.content = X c → f.content = c) →
    (pureScanQuick R gs).filter (fun p => decide (p.2.content = c))
      = classPairs none
          ((lookupG gs (X (c.take sampleSize))).filter
            (fun f => decide (f.content = c))) := by
  intro gs
  induction gs with
  | nil =>
    intro _ _ _ _ _
    simp [pureScanQuick, lookupG, classPairs]
  | cons g t ih =>
    intro hnd hkey hshape hcls hinj
    obtain ⟨q, fl⟩ := g
    have hnd2 : ¬ q ∈ t.map Prod.fst ∧ (t.map Prod.fst).Nodup := by
      rw [List.map_cons] at hnd
      exact List.nodup_cons.mp hnd
    have hkey0 := hkey (q, fl) (List.mem_cons_self _ _)
    have hshape0 := hshape (q, fl) (List.mem_cons_self _ _)
    have hcls0 := hcls (q, fl) (List.mem_cons_self _ _)
    have hinj0 := hinj (q, fl) (List.mem_cons_self _ _)
    have hkey' := fun g' hg' => hkey g' (List.mem_cons_of_mem _ hg')
    have hshape' := fun g' hg' => hshape g' (List.mem_cons_of_mem _ hg')
    have hcls' := fun g' hg' => hcls g' (List.mem_cons_of_mem _ hg')
    have hinj' := fun g' hg' => hinj g' (List.mem_cons_of_mem _ hg')
    have hrec := ih hnd2.2 hkey' hshape' hcls' hinj'
    by_cases hq : q = X (c.take sampleSize)
    · -- the class bucket: the tail has no bucket under this key
      have htail : lookupG t (X (c.take sampleSize)) = [] :=
        lookupG_not_mem t _ (by rw [← hq]; exact hnd2.1)
      have htail2 : (pureScanQuick R t).filter
          (fun p => decide (p.2.content = c)) = [] := by
        rw [hrec, htail]
        simp [classPairs]
      rw [lookupG, if_pos hq]
      by_cases hlen : fl.length < 2
      · rw [pureScanQuick, if_pos hlen, htail2, classPairs_none_short]
        calc (fl.filter (fun f => decide (f.content = c))).length
            ≤ fl.length := List.length_filter_le _ fl
          _ ≤ 1 := by omega
      · rw [pureScanQuick, if_neg hlen, List.filter_append, htail2,
          List.append_nil]
        rw [pureScanFull_class X R c fl [] hshape0 hcls0 hinj0
          (by intro p hp; simp at hp) (by intro p hp; simp at hp)]
        rfl
    · -- another bucket: it holds no file of content `c`
      have hflc : fl.filter (fun f => decide (f.content = c)) = [] := by
        rw [List.filter_eq_nil_iff]
        intro f hf
        simp only [decide_eq_true_eq]
        intro hfc
        have h1 := hkey0 f hf
        have hqo : f.quickOk = true := by
          cases hqo2 : f.quickOk
          · unfold calculate_quick_hash at h1
            rw [hqo2] at h1
            simp at h1
          · rfl
        have h2 : calculate_quick_hash X f = some (X (c.take sampleSize)) := by
          unfold calculate_quick_hash
          rw [hqo, hfc]
          simp
        rw [h1] at h2
        exact hq (Option.some.inj h2)
      rw [lookupG, if_neg hq, ← hrec]
      by_cases hlen : fl.length < 2
      · rw [pureScanQuick, if_pos hlen]
      · rw [pureScanQuick, if_neg hlen, List.filter_append]
        rw [pureScanFull_class X R c fl [] hshape0 hcls0 hinj0
          (by intro p hp; simp at hp) (by intro p hp; simp at hp)]
        rw [hflc]
        simp [classPairs]

/-! ## The candidate list as a function of the size groups -/

/-- The candidate-collection fold of `find_duplicates_stream`, over an
arbitrary group list. -/
def candGo (gs : List (Nat × List FSFile)) : List FSFile :=
  gs.foldl (fun acc sfs => if sfs.2.length > 1 then acc ++ sfs.2 else acc) []

theorem candidateFiles_eq (ext : Option PStr) (minSize : Nat)
    (walk : List FSFile) :
    candidateFiles ext minSize walk
      = candGo (group_files_by_size ext minSize walk) := rfl

theorem candGo_shift :
    ∀ (gs : List (Nat × List FSFile)) (acc : List FSFile),
    gs.foldl (fun acc sfs => if sfs.2.length > 1 then acc ++ sfs.2 else acc) acc
      = acc ++ candGo gs := by
  intro gs
  induction gs with
  | nil => intro acc; simp [candGo]
  | cons g t ih =>
    intro acc
    rw [List.foldl_cons]
    have h2 : candGo (g :: t)
        = (if g.2.length > 1 then ([] : List FSFile) ++ g.2 else []) ++ candGo t := by
      unfold candGo
      rw [List.foldl_cons]
      exact ih _
    rw [ih, h2]
    by_cases hlen : g.2.length > 1 <;> simp [hlen]

theorem candGo_cons (g : Nat × List FSFile) (t : List (Nat × List FSFile)) :
    candGo (g :: t) = (if g.2.length > 1 then g.2 else []) ++ candGo t := by
  unfold candGo
  rw [List.foldl_cons, candGo_shift]
  by_cases hlen : g.2.length > 1 <;> simp [hlen, candGo]

theorem candGo_mem_group :
    ∀ (gs : List (Nat × List FSFile)), ∀ f ∈ candGo gs,
    ∃ g ∈ gs, 1 < g.2.length ∧ f ∈ g.2 := by
  intro gs
  induction gs with
  | nil => intro f hf; simp [candGo] at hf
  | cons g t ih =>
    intro f hf
    rw [candGo_cons] at hf
    rcases List.mem_append.mp hf with hf | hf
    · by_cases hlen : g.2.length > 1
      · rw [if_pos hlen] at hf
        exact ⟨g, List.mem_cons_self _ _, hlen, hf⟩
      · rw [if_neg hlen] at hf
        simp at hf
    · obtain ⟨g', hg', hlen', hf'⟩ := ih f hf
      exact ⟨g', List.mem_cons_of_mem _ hg', hlen', hf'⟩

theorem candGo_group_mem :
    ∀ (gs : List (Nat × List FSFile)), ∀ g ∈ gs, 1 < g.2.length →
    ∀ f ∈ g.2, f ∈ candGo gs := by
  intro gs
  induction gs with
  | nil => intro g hg; simp at hg
  | cons g0 t ih =>
    intro g hg hlen f hf
    rw [candGo_cons]
    rcases List.mem_cons.mp hg with hg | hg
    · subst hg
      rw [if_pos hlen]
      exact List.mem_append.mpr (Or.inl hf)
    · exact List.mem_append.mpr (Or.inr (ih g hg hlen f hf))

/-- Group keys carry the members' sizes. -/
theorem addToGroup_keyed (x : FSFile) :
    ∀ (d : List (Nat × List FSFile)),
    (∀ g ∈ d, ∀ f ∈ g.2, f.size = g.1) →
    ∀ g ∈ addToGroup d x, ∀ f ∈ g.2, f.size = g.1 := by
  intro d
  induction d with
  | nil =>
    intro _ g hg f hf
    simp only [addToGroup, List.mem_singleton] at hg
    subst hg
    simp at hf
    rw [hf]
  | cons e t ih =>
    intro hd g hg f hf
    obtain ⟨s, fs⟩ := e
    by_cases hs : s = x.size
    · rw [addToGroup, if_pos hs] at hg
      rcases List.mem_cons.mp hg with hg | hg
      · subst hg
        rcases List.mem_append.mp hf with hf | hf
        · exact hd (s, fs) (List.mem_cons_self _ _) f hf
        · simp at hf
          subst hf
          rw [hs]
      · exact hd g (List.mem_cons_of_mem _ hg) f hf
    · rw [addToGroup, if_neg hs] at hg
      rcases List.mem_cons.mp hg with hg | hg
      · subst hg
        exact hd (s, fs) (List.mem_cons_self _ _) f hf
      · exact ih (fun g' hg' => hd g' (List.mem_cons_of_mem _ hg')) g hg f hf

theorem group_files_keyed (ext : Option PStr) (minSize : Nat) :
    ∀ (walk : List FSFile) (acc : List (Nat × List FSFile)),
    (∀ g ∈ acc, ∀ f ∈ g.2, f.size = g.1) →
    ∀ g ∈ walk.foldl
      (fun d f => if passesFilters ext minSize f then addToGroup d f else d) acc,
    ∀ f ∈ g.2, f.size = g.1 := by
  intro walk
  induction walk with
  | nil => intro acc hacc g hg f hf; exact hacc g hg f hf
  | cons f t ih =>
    intro acc hacc g hg x hx
    rw [List.foldl_cons] at hg
    by_cases hpass : passesFilters ext minSize f
    · rw [if_pos hpass] at hg
      exact ih (addToGroup acc f) (addToGroup_keyed f acc hacc) g hg x hx
    · rw [if_neg hpass] at hg
      exact ih acc hacc g hg x hx

theorem addToGroup_keys (x : FSFile) :
    ∀ (d : List (Nat × List FSFile)),
    (addToGroup d x).map Prod.fst
      = if x.size ∈ d.map Prod.fst then d.map Prod.fst
        else d.map Prod.fst ++ [x.size] := by
  intro d
  induction d with
  | nil => simp [addToGroup]
  | cons e t ih =>
    obtain ⟨s, fs⟩ := e
    by_cases hs : s = x.size
    · subst hs
      simp [addToGroup]
    · have hne : ¬ x.size = s := fun h => hs h.symm
      rw [addToGroup, if_neg hs]
      by_cases hmem : x.size ∈ t.map Prod.fst
      · simp [ih, hmem, hne]
      · simp [ih, hmem, hne]

theorem group_files_keys_nodup (ext : Option PStr) (minSize : Nat) :
    ∀ (walk : List FSFile) (acc : List (Nat × List FSFile)),
    (acc.map Prod.fst).Nodup →
    ((walk.foldl
      (fun d f => if passesFilters ext minSize f then addToGroup d f else d)
      acc).map Prod.fst).Nodup := by
  intro walk
  induction walk with
  | nil => intro acc h; exact h
  | cons f t ih =>
    intro acc h
    rw [List.foldl_cons]
    by_cases hpass : passesFilters ext minSize f
    · rw [if_pos hpass]
      apply ih
      rw [addToGroup_keys]
      by_cases hmem : f.size ∈ acc.map Prod.fst
      · rw [if_pos hmem]
        exact h
      · rw [if_neg hmem]
        simp [List.nodup_append, h, hmem]
    · rw [if_neg hpass]
      exact ih acc h

theorem quickGroupsR_lookup (Q : FSFile → Option Nat) (files : List FSFile)
    (k : Nat) :
    lookupG (quickGroupsR Q files) k
      = files.filter (fun f => decide (Q f = some k)) := by
  unfold quickGroupsR
  rw [quickGroupsR_char]
  rfl

theorem quickGroupsR_nodup (Q : FSFile → Option Nat) (files : List FSFile) :
    ((quickGroupsR Q files).map Prod.fst).Nodup := by
  unfold quickGroupsR
  exact quickGroupsR_keys_nodup Q files [] (by simp)

theorem quickGroupsR_keyed_all (Q : FSFile → Option Nat) (files : List FSFile) :
    ∀ g ∈ quickGroupsR Q files, ∀ f ∈ g.2, Q f = some g.1 := by
  unfold quickGroupsR
  exact quickGroupsR_keyed Q files [] (by intro g hg; simp at hg)

/-- Filtered view of the whole batch scan (cache-free form): relative to a
target content `c`, the pairs whose original has content `c` are the
evolving-anchor pairs of the content-`c` candidate files. -/
theorem pureScanSizes_class (X : List Nat → Nat) (R : FSFile → Option Nat)
    (c : List Nat) :
    ∀ (gs : List (Nat × List FSFile)),
    ((gs.map Prod.fst).Nodup) →
    (∀ g ∈ gs, ∀ f ∈ g.2, f.size = g.1) →
    (∀ g ∈ gs, 1 < g.2.length → ∀ f ∈ g.2, f.size = f.content.length) →
    (∀ g ∈ gs, 1 < g.2.length → ∀ f ∈ g.2,
        R f = none ∨ R f = some (X f.content)) →
    (∀ g ∈ gs, 1 < g.2.length → ∀ f ∈ g.2, f.content = c →
        R f = some (X f.content) ∧ f.quickOk = true) →
    (∀ g ∈ gs, 1 < g.2.length → ∀ f ∈ g.2, X f.content = X c →
        f.content = c) →
    (pureScanSizes (calculate_quick_hash X) R gs).filter
        (fun p => decide (p.2.content = c))
      = classPairs none
          ((candGo gs).filter (fun f => decide (f.content = c))) := by
  intro gs
  induction gs with
  | nil =>
    intro _ _ _ _ _ _
    simp [pureScanSizes, candGo, classPairs]
  | cons g t ih =>
    intro hnd hszkey hsm hshape hcls hinj
    obtain ⟨s, files⟩ := g
    have hnd2 : ¬ s ∈ t.map Prod.fst ∧ (t.map Prod.fst).Nodup := by
      rw [List.map_cons] at hnd
      exact List.nodup_cons.mp hnd
    have hrec := ih hnd2.2
      (fun g' hg' => hszkey g' (List.mem_cons_of_mem _ hg'))
      (fun g' hg' => hsm g' (List.mem_cons_of_mem _ hg'))
      (fun g' hg' => hshape g' (List.mem_cons_of_mem _ hg'))
      (fun g' hg' => hcls g' (List.mem_cons_of_mem _ hg'))
      (fun g' hg' => hinj g' (List.mem_cons_of_mem _ hg'))
    rw [candGo_cons]
    by_cases hlen : 1 < files.length
    · have hlen2 : ¬ files.length < 2 := by omega
      have hlen3 : (s, files).2.length > 1 := hlen
      have hs0 : ∀ f ∈ files, f.size = s :=
        hszkey (s, files) (List.mem_cons_self _ _)
      have hsm0 : ∀ f ∈ files, f.size = f.content.length :=
        hsm (s, files) (List.mem_cons_self _ _) hlen3
      have hshape0 : ∀ f ∈ files, R f = none ∨ R f = some (X f.content) :=
        hshape (s, files) (List.mem_cons_self _ _) hlen3
      have hcls0 : ∀ f ∈ files, f.content = c →
          R f = some (X f.content) ∧ f.quickOk = true :=
        hcls (s, files) (List.mem_cons_self _ _) hlen3
      have hinj0 : ∀ f ∈ files, X f.content = X c → f.content = c :=
        hinj (s, files) (List.mem_cons_self _ _) hlen3
      have hbmem := quickGroupsR_mem (calculate_quick_hash X) files
      have hquick : (pureScanQuick R
            (quickGroupsR (calculate_quick_hash X) files)).filter
            (fun p => decide (p.2.content = c))
          = classPairs none
              ((lookupG (quickGroupsR (calculate_quick_hash X) files)
                  (X (c.take sampleSize))).filter
                (fun f => decide (f.content = c))) :=
        pureScanQuick_class X R c _
          (quickGroupsR_nodup _ files)
          (quickGroupsR_keyed_all _ files)
          (fun g' hg' f hf => hshape0 f (hbmem g' hg' f hf))
          (fun g' hg' f hf hfc => (hcls0 f (hbmem g' hg' f hf) hfc).1)
          (fun g' hg' f hf => hinj0 f (hbmem g' hg' f hf))
      simp only [pureScanSizes, if_neg hlen2]
      rw [List.filter_append, hrec, hquick, quickGroupsR_lookup,
        List.filter_filter]
      by_cases hsz : s = c.length
      · -- the class's size group
        have htailc : (candGo t).filter (fun f => decide (f.content = c))
            = [] := by
          rw [List.filter_eq_nil_iff]
          intro f hf
          obtain ⟨g', hg', hlen', hmemf⟩ := candGo_mem_group t f hf
          have h1 : f.size = g'.1 :=
            hszkey g' (List.mem_cons_of_mem _ hg') f hmemf
          have h2 : f.size = f.content.length :=
            hsm g' (List.mem_cons_of_mem _ hg') hlen' f hmemf
          simp only [decide_eq_true_eq]
          intro hfc
          apply hnd2.1
          have : g'.1 = s := by
            rw [← h1, h2, hfc, ← hsz]
          rw [← this]
          exact List.mem_map_of_mem Prod.fst hg'
        have hconv : files.filter
              (fun f => decide (f.content = c) &&
                decide (calculate_quick_hash X f
                  = some (X (c.take sampleSize))))
            = files.filter (fun f => decide (f.content = c)) := by
          apply List.filter_congr
          intro f hf
          by_cases hfc : f.content = c
          · have hq := (hcls0 f hf hfc).2
            have hqv : calculate_quick_hash X f
                = some (X (c.take sampleSize)) := by
              unfold calculate_quick_hash
              rw [hq, hfc]
              simp
            simp [hfc, hqv]
          · simp [hfc]
        rw [hconv, htailc, if_pos hlen, List.filter_append, htailc]
        simp [classPairs]
      · -- a size group that cannot hold content `c`
        have hfilesc : ∀ f ∈ files, ¬ f.content = c := by
          intro f hf hfc
          apply hsz
          rw [← (hs0 f hf), hsm0 f hf, hfc]
        have hfc1 : files.filter
              (fun f => decide (f.content = c) &&
                decide (calculate_quick_hash X f
                  = some (X (c.take sampleSize))))
            = [] := by
          rw [List.filter_eq_nil_iff]
          intro f hf
          simp [hfilesc f hf]
        have hfc2 : files.filter (fun f => decide (f.content = c)) = [] := by
          rw [List.filter_eq_nil_iff]
          intro f hf
          simp [hfilesc f hf]
        rw [hfc1, if_pos hlen, List.filter_append, hfc2]
        simp [classPairs]
    · have hlen2 : files.length < 2 := by omega
      have hlen4 : ¬ (s, files).2.length > 1 := hlen
      simp only [pureScanSizes, if_pos hlen2]
      rw [hrec, if_neg hlen4]
      simp

/-! ## The streaming scanner's content classes -/

/-- One lazy-fill pass over an anchor (what the stream's inner loop writes
back for anchors it walks past). -/
def fillA (R : FSFile → Option Nat) (a : Anchor) : Anchor :=
  ⟨a.file,
    match a.full with
    | some h => some h
    | none => R a.file⟩

/-- The facts maintained for every anchor in a bucket keyed `k`, relative
to target content `c`. -/
def AnchOk (X : List Nat → Nat) (R : FSFile → Option Nat) (c : List Nat)
    (k : Nat) (a : Anchor) : Prop :=
  (R a.file = none ∨ R a.file = some (X a.file.content))
  ∧ (a.full = none ∨ a.full = R a.file)
  ∧ (X a.file.content = X c → a.file.content = c)
  ∧ (a.file.content = c →
      R a.file = some (X c) ∧ k = X (c.take sampleSize))

/-- The class-`c` anchor of the streaming bucket table: absent, or a single
record holding the evolving class original. -/
def CChar (X : List Nat → Nat) (c : List Nat) (bks : Buckets)
    (A : Option FSFile) : Prop :=
  match A with
  | none =>
    (lookupB bks (X (c.take sampleSize))).filter
      (fun a => decide (a.file.content = c)) = []
  | some g =>
    ∃ fu, (lookupB bks (X (c.take sampleSize))).filter
        (fun a => decide (a.file.content = c)) = [⟨g, fu⟩]
      ∧ (fu = none ∨ fu = some (X c))

theorem lookupB_mem_key :
    ∀ (bks : Buckets) (q : Nat), ∀ a ∈ lookupB bks q,
    ∃ p ∈ bks, p.1 = q ∧ a ∈ p.2 := by
  intro bks
  induction bks with
  | nil => intro q a ha; simp [lookupB] at ha
  | cons e t ih =>
    intro q a ha
    obtain ⟨k, ans⟩ := e
    by_cases hk : k = q
    · rw [lookupB, if_pos hk] at ha
      exact ⟨(k, ans), List.mem_cons_self _ _, hk, ha⟩
    · rw [lookupB, if_neg hk] at ha
      obtain ⟨p, hp, hpq, hap⟩ := ih q a ha
      exact ⟨p, List.mem_cons_of_mem _ hp, hpq, hap⟩

theorem lookupB_storeB :
    ∀ (bks : Buckets) (q : Nat) (ans : List Anchor) (k : Nat),
    lookupB (storeB bks q ans) k = if q = k then ans else lookupB bks k := by
  intro bks
  induction bks with
  | nil =>
    intro q ans k
    by_cases hk : q = k <;> simp [storeB, lookupB, hk]
  | cons e t ih =>
    intro q ans k
    obtain ⟨k', bs⟩ := e
    by_cases he : k' = q
    · subst he
      by_cases hk : k' = k
      · subst hk
        simp [storeB, lookupB]
      · simp [storeB, lookupB, hk]
    · by_cases hk : k' = k
      · subst hk
        have hqk : ¬ q = k' := fun h => he h.symm
        simp [storeB, lookupB, he, hqk]
      · simp [storeB, lookupB, he, hk, ih]

theorem storeB_anchOk (X : List Nat → Nat) (R : FSFile → Option Nat)
    (c : List Nat) :
    ∀ (bks : Buckets) (q : Nat) (ans : List Anchor),
    (∀ p ∈ bks, ∀ a ∈ p.2, AnchOk X R c p.1 a) →
    (∀ a ∈ ans, AnchOk X R c q a) →
    ∀ p ∈ storeB bks q ans, ∀ a ∈ p.2, AnchOk X R c p.1 a := by
  intro bks
  induction bks with
  | nil =>
    intro q ans _ hans p hp a ha
    simp only [storeB, List.mem_singleton] at hp
    subst hp
    exact hans a ha
  | cons e t ih =>
    intro q ans hb hans p hp a ha
    obtain ⟨k, bs⟩ := e
    by_cases hk : k = q
    · rw [storeB, if_pos hk] at hp
      rcases List.mem_cons.mp hp with hp | hp
      · subst hp
        exact hans a ha
      · exact hb p (List.mem_cons_of_mem _ hp) a ha
    · rw [storeB, if_neg hk] at hp
      rcases List.mem_cons.mp hp with hp | hp
      · subst hp
        exact hb (k, bs) (List.mem_cons_self _ _) a ha
      · exact ih q ans (fun p' hp' => hb p' (List.mem_cons_of_mem _ hp'))
          hans p hp a ha

theorem fillA_anchOk (X : List Nat → Nat) (R : FSFile → Option Nat)
    (c : List Nat) (k : Nat) (a : Anchor) (h : AnchOk X R c k a) :
    AnchOk X R c k (fillA R a) := by
  obtain ⟨h1, h2, h3, h4⟩ := h
  cases hfu : a.full with
  | some v =>
    have he : fillA R a = ⟨a.file, some v⟩ := by simp [fillA, hfu]
    rw [he]
    rw [hfu] at h2
    refine ⟨h1, ?_, h3, h4⟩
    rcases h2 with h2 | h2
    · exact Option.noConfusion h2
    · exact Or.inr h2
  | none =>
    have he : fillA R a = ⟨a.file, R a.file⟩ := by simp [fillA, hfu]
    rw [he]
    exact ⟨h1, Or.inr rfl, h3, h4⟩

theorem filter_fillA (R : FSFile → Option Nat) (c : List Nat) :
    ∀ (l : List Anchor),
    (l.map (fillA R)).filter (fun a => decide (a.file.content = c))
      = (l.filter (fun a => decide (a.file.content = c))).map (fillA R) := by
  intro l
  induction l with
  | nil => rfl
  | cons a t ih =>
    by_cases hc : a.file.content = c
    · have : (fillA R a).file.content = c := hc
      simp only [List.map_cons, List.filter_cons]
      rw [if_pos (by simp [this]), if_pos (by simp [hc])]
      simp [ih]
    · have : ¬ (fillA R a).file.content = c := hc
      simp only [List.map_cons, List.filter_cons]
      rw [if_neg (by simp [this]), if_neg (by simp [hc])]
      exact ih

theorem filter_singleton_decomp {α : Type} (p : α → Bool) :
    ∀ (l : List α) (x : α), l.filter p = [x] →
    ∃ l1 l2, l = l1 ++ x :: l2 ∧ (∀ a ∈ l1, ¬ p a) ∧ l2.filter p = [] := by
  intro l
  induction l with
  | nil => intro x h; simp at h
  | cons a t ih =>
    intro x h
    rw [List.filter_cons] at h
    by_cases hp : p a
    · rw [if_pos (by simpa using hp)] at h
      have hax : a = x ∧ t.filter p = [] := by
        have := List.cons.inj h
        exact ⟨this.1, this.2⟩
      exact ⟨[], t, by simp [hax.1], by intro b hb; simp at hb, hax.2⟩
    · rw [if_neg (by simpa using hp)] at h
      obtain ⟨l1, l2, he, hl1, hl2⟩ := ih x h
      exact ⟨a :: l1, l2, by simp [he], by
        intro b hb
        rcases List.mem_cons.mp hb with hb | hb
        · subst hb
          exact hp
        · exact hl1 b hb, hl2⟩

theorem anchorCompare_cases (f a : FSFile) :
    anchorCompare f a = ((a, f), f) ∨ anchorCompare f a = ((f, a), a) := by
  unfold anchorCompare
  by_cases h : lexLt (pyLower f.dir) (pyLower a.dir) = true
  · rw [if_pos h]
    exact Or.inl rfl
  · rw [if_neg h]
    exact Or.inr rfl

theorem fill_eq_R (R : FSFile → Option Nat) (a : Anchor)
    (h : a.full = none ∨ a.full = R a.file) :
    (match a.full with
     | some hh => some hh
     | none => R a.file) = R a.file := by
  cases hfu : a.full with
  | none => rfl
  | some v =>
    rcases h with h | h
    · rw [hfu] at h
      exact Option.noConfusion h
    · rw [hfu] at h
      exact h

theorem pSM_step (R : FSFile → Option Nat) (a : Anchor) (t : List Anchor)
    (f : FSFile) (v : Option Nat)
    (hv : (match a.full with
           | some hh => some hh
           | none => R a.file) = v) :
    pureStreamMatch R (a :: t) f =
      if R f = v then
        (⟨(anchorCompare f a.file).2, v⟩ :: t,
         some (anchorCompare f a.file).1)
      else
        (⟨a.file, v⟩ :: (pureStreamMatch R t f).1,
         (pureStreamMatch R t f).2) := by
  subst hv
  by_cases h : R f = (match a.full with
    | some hh => some hh
    | none => R a.file)
  · simp [pureStreamMatch, h]
  · simp [pureStreamMatch, h]

theorem fillA_eq_R (R : FSFile → Option Nat) (a : Anchor)
    (h : a.full = none ∨ a.full = R a.file) :
    fillA R a = ⟨a.file, R a.file⟩ := by
  unfold fillA
  rw [fill_eq_R R a h]

theorem class_no_match (X : List Nat → Nat) (R : FSFile → Option Nat)
    (c : List Nat) (f : FSFile) (a : Anchor) (hRf : R f = some (X c))
    (hfree : ¬ a.file.content = c)
    (hshape : R a.file = none ∨ R a.file = some (X a.file.content))
    (hinj : X a.file.content = X c → a.file.content = c) :
    ¬ R f = R a.file := by
  rcases hshape with hs | hs
  · rw [hs, hRf]
    simp
  · rw [hs, hRf]
    intro hEq
    exact hfree (hinj (Option.some.inj hEq).symm)

/-- A class member searching an anchor list free of its class matches
nothing and lazily fills every anchor it passes. -/
theorem pSM_class_miss (X : List Nat → Nat) (R : FSFile → Option Nat)
    (c : List Nat) (f : FSFile) (hRf : R f = some (X c)) :
    ∀ (ans : List Anchor),
    (∀ a ∈ ans, ¬ a.file.content = c) →
    (∀ a ∈ ans, R a.file = none ∨ R a.file = some (X a.file.content)) →
    (∀ a ∈ ans, a.full = none ∨ a.full = R a.file) →
    (∀ a ∈ ans, X a.file.content = X c → a.file.content = c) →
    pureStreamMatch R ans f = (ans.map (fillA R), none) := by
  intro ans
  induction ans with
  | nil =>
    intro _ _ _ _
    rfl
  | cons a t ih =>
    intro hfree hshape hfillc hinj
    have ha := List.mem_cons_self a t
    have hne := class_no_match X R c f a hRf (hfree a ha) (hshape a ha)
      (hinj a ha)
    rw [pSM_step R a t f (R a.file) (fill_eq_R R a (hfillc a ha)),
      if_neg hne,
      ih (fun x hx => hfree x (List.mem_cons_of_mem _ hx))
        (fun x hx => hshape x (List.mem_cons_of_mem _ hx))
        (fun x hx => hfillc x (List.mem_cons_of_mem _ hx))
        (fun x hx => hinj x (List.mem_cons_of_mem _ hx))]
    rw [List.map_cons, fillA_eq_R R a (hfillc a ha)]

/-- A class member searching a bucket whose single class anchor is `⟨g, fu⟩`
matches it: the winner of `anchorCompare` replaces the anchor with its full
hash set, and the loser/original pair is emitted. -/
theorem pSM_class_hit (X : List Nat → Nat) (R : FSFile → Option Nat)
    (c : List Nat) (f : FSFile) (hRf : R f = some (X c)) :
    ∀ (l1 : List Anchor) (g : FSFile) (fu : Option Nat) (l2 : List Anchor),
    (∀ a ∈ l1, ¬ a.file.content = c) →
    (∀ a ∈ l1, R a.file = none ∨ R a.file = some (X a.file.content)) →
    (∀ a ∈ l1, a.full = none ∨ a.full = R a.file) →
    (∀ a ∈ l1, X a.file.content = X c → a.file.content = c) →
    R g = some (X c) →
    (fu = none ∨ fu = some (X c)) →
    pureStreamMatch R (l1 ++ ⟨g, fu⟩ :: l2) f
      = (l1.map (fillA R)
          ++ ⟨(anchorCompare f g).2, some (X c)⟩ :: l2,
         some (anchorCompare f g).1) := by
  intro l1
  induction l1 with
  | nil =>
    intro g fu l2 _ _ _ _ hRg hfu
    have hfe : (match (⟨g, fu⟩ : Anchor).full with
        | some hh => some hh
        | none => R (⟨g, fu⟩ : Anchor).file) = some (X c) := by
      rcases hfu with hfu | hfu <;> subst hfu
      · exact hRg
      · rfl
    rw [List.nil_append,
      pSM_step R ⟨g, fu⟩ l2 f (some (X c)) hfe, if_pos (by rw [hRf])]
    rfl
  | cons a t ih =>
    intro g fu l2 hfree hshape hfillc hinj hRg hfu
    have ha := List.mem_cons_self a t
    have hne := class_no_match X R c f a hRf (hfree a ha) (hshape a ha)
      (hinj a ha)
    rw [List.cons_append,
      pSM_step R a (t ++ ⟨g, fu⟩ :: l2) f (R a.file)
        (fill_eq_R R a (hfillc a ha)),
      if_neg hne,
      ih g fu l2 (fun x hx => hfree x (List.mem_cons_of_mem _ hx))
        (fun x hx => hshape x (List.mem_cons_of_mem _ hx))
        (fun x hx => hfillc x (List.mem_cons_of_mem _ hx))
        (fun x hx => hinj x (List.mem_cons_of_mem _ hx)) hRg hfu]
    simp [fillA_eq_R R a (hfillc a ha)]

/-- A search by a file outside the class preserves every per-anchor
invariant, never emits a pair whose original is in the class, and leaves
the files of the class-filtered anchors unchanged. -/
theorem pSM_preserve (X : List Nat → Nat) (R : FSFile → Option Nat)
    (c : List Nat) (k : Nat) (f : FSFile)
    (hFsh : R f = none ∨ R f = some (X f.content))
    (hFinj : X f.content = X c → f.content = c)
    (hfc : ¬ f.content = c) :
    ∀ (ans : List Anchor),
    (∀ a ∈ ans, AnchOk X R c k a) →
    (∀ a ∈ (pureStreamMatch R ans f).1, AnchOk X R c k a)
    ∧ (∀ p, (pureStreamMatch R ans f).2 = some p → ¬ p.2.content = c)
    ∧ ((pureStreamMatch R ans f).1.filter
          (fun a => decide (a.file.content = c))).map Anchor.file
      = (ans.filter (fun a => decide (a.file.content = c))).map
          Anchor.file := by
  intro ans
  induction ans with
  | nil =>
    intro _
    refine ⟨?_, ?_, rfl⟩
    · intro a hmem
      simp [pureStreamMatch] at hmem
    · intro p hp
      simp [pureStreamMatch] at hp
  | cons a t ih =>
    intro hOk
    have ha := List.mem_cons_self a t
    obtain ⟨hsh, hfl, hij, hcl⟩ := hOk a ha
    have htOk : ∀ x ∈ t, AnchOk X R c k x :=
      fun x hx => hOk x (List.mem_cons_of_mem _ hx)
    by_cases hm : R f = R a.file
    · have hanc : ¬ a.file.content = c := by
        intro hacc
        rw [(hcl hacc).1] at hm
        rcases hFsh with hs | hs
        · rw [hs] at hm
          exact Option.noConfusion hm
        · rw [hs] at hm
          exact hfc (hFinj (Option.some.inj hm))
      have hwnc : ¬ (anchorCompare f a.file).2.content = c := by
        rcases anchorCompare_snd_cases f a.file with h | h <;> rw [h]
        · exact hfc
        · exact hanc
      rw [pSM_step R a t f (R a.file) (fill_eq_R R a hfl), if_pos hm]
      refine ⟨?_, ?_, ?_⟩
      · intro x hx
        rcases List.mem_cons.mp hx with hx | hx
        · subst hx
          rcases anchorCompare_cases f a.file with h | h <;> rw [h]
          · exact ⟨hFsh, Or.inr hm.symm, hFinj,
              fun hcon => absurd hcon hfc⟩
          · exact ⟨hsh, Or.inr rfl, hij, fun hcon => absurd hcon hanc⟩
        · exact htOk x hx
      · intro p hp
        have hpe : p = (anchorCompare f a.file).1 :=
          (Option.some.inj hp).symm
        subst hpe
        rcases anchorCompare_orig_cases f a.file with h | h <;> rw [h]
        · exact hfc
        · exact hanc
      · rw [List.filter_cons, List.filter_cons,
          if_neg (by simp [hwnc]), if_neg (by simp [hanc])]
    · rw [pSM_step R a t f (R a.file) (fill_eq_R R a hfl), if_neg hm]
      obtain ⟨ih1, ih2, ih3⟩ := ih htOk
      refine ⟨?_, ih2, ?_⟩
      · intro x hx
        rcases List.mem_cons.mp hx with hx | hx
        · subst hx
          exact ⟨hsh, Or.inr rfl, hij, hcl⟩
        · exact ih1 x hx
      · by_cases hac : a.file.content = c
        · rw [List.filter_cons, List.filter_cons,
            if_pos (by simp [hac]), if_pos (by simp [hac]),
            List.map_cons, List.map_cons, ih3]
        · rw [List.filter_cons, List.filter_cons,
            if_neg (by simp [hac]), if_neg (by simp [hac]), ih3]

/-- The bucket content written back after one stream search (the matched
list, or the searched list with the file appended as a fresh anchor). -/
def pAns (R : FSFile → Option Nat) (ans : List Anchor) (f : FSFile) :
    List Anchor :=
  match (pureStreamMatch R ans f).2 with
  | some _ => (pureStreamMatch R ans f).1
  | none => (pureStreamMatch R ans f).1 ++ [⟨f, none⟩]

theorem pSG_step (Q R : FSFile → Option Nat) (f : FSFile)
    (t : List FSFile) (bks : Buckets) (q : Nat) (hq : Q f = some q) :
    pureStreamGo Q R (f :: t) bks
      = (pureStreamMatch R (lookupB bks q) f).2.toList
        ++ pureStreamGo Q R t (storeB bks q (pAns R (lookupB bks q) f)) := by
  simp [pureStreamGo, pAns, hq]

theorem pSG_skip (Q R : FSFile → Option Nat) (f : FSFile)
    (t : List FSFile) (bks : Buckets) (hq : Q f = none) :
    pureStreamGo Q R (f :: t) bks = pureStreamGo Q R t bks := by
  simp [pureStreamGo, hq]

theorem pAns_some (R : FSFile → Option Nat) (ans : List Anchor)
    (f : FSFile) (p : FSFile × FSFile)
    (h : (pureStreamMatch R ans f).2 = some p) :
    pAns R ans f = (pureStreamMatch R ans f).1 := by
  simp only [pAns, h]

theorem pAns_none (R : FSFile → Option Nat) (ans : List Anchor)
    (f : FSFile) (h : (pureStreamMatch R ans f).2 = none) :
    pAns R ans f = (pureStreamMatch R ans f).1 ++ [⟨f, none⟩] := by
  simp only [pAns, h]

theorem map_file_singleton (g : FSFile) :
    ∀ (l : List Anchor), l.map Anchor.file = [g] →
    ∃ fu, l = [⟨g, fu⟩] := by
  intro l
  cases l with
  | nil => intro h; simp at h
  | cons x xs =>
    intro h
    rw [List.map_cons] at h
    have h1 : x.file = g ∧ xs.map Anchor.file = [] := by
      have := List.cons.inj h
      exact ⟨this.1, this.2⟩
    have h2 : xs = [] := List.map_eq_nil_iff.mp h1.2
    refine ⟨x.full, ?_⟩
    rw [h2]
    cases x with
    | mk xf xu =>
      simp only [List.cons.injEq, and_true]
      simp only at h1
      rw [h1.1]

/-- Filtered view of the streaming candidate loop, for one content class
`c`: out of any bucket table whose anchors satisfy the per-bucket
invariants and whose class anchor is characterised by `A`, the loop's
pairs whose original has content `c` are exactly the evolving-anchor pairs
of the class members, seeded with `A`. -/
theorem pureStreamGo_class (X : List Nat → Nat) (R : FSFile → Option Nat)
    (c : List Nat) :
    ∀ (l : List FSFile) (bks : Buckets) (A : Option FSFile),
    (∀ f ∈ l, R f = none ∨ R f = some (X f.content)) →
    (∀ f ∈ l, X f.content = X c → f.content = c) →
    (∀ f ∈ l, f.content = c → f.quickOk = true ∧ R f = some (X f.content)) →
    (∀ p ∈ bks, ∀ a ∈ p.2, AnchOk X R c p.1 a) →
    CChar X c bks A →
    (pureStreamGo (calculate_quick_hash X) R l bks).filter
        (fun p => decide (p.2.content = c))
      = classPairs A (l.filter (fun f => decide (f.content = c))) := by
  intro l
  induction l with
  | nil =>
    intro bks A _ _ _ _ _
    cases A <;> rfl
  | cons f t ih =>
    intro bks A hsh hinj hcls hbk hch
    have hf := List.mem_cons_self f t
    have hshT : ∀ x ∈ t, R x = none ∨ R x = some (X x.content) :=
      fun x hx => hsh x (List.mem_cons_of_mem _ hx)
    have hinjT : ∀ x ∈ t, X x.content = X c → x.content = c :=
      fun x hx => hinj x (List.mem_cons_of_mem _ hx)
    have hclsT : ∀ x ∈ t, x.content = c →
        x.quickOk = true ∧ R x = some (X x.content) :=
      fun x hx => hcls x (List.mem_cons_of_mem _ hx)
    by_cases hfc : f.content = c
    · -- a class member is processed
      obtain ⟨hqok, hRf0⟩ := hcls f hf hfc
      have hRf : R f = some (X c) := by rw [hRf0, hfc]
      have hq : calculate_quick_hash X f = some (X (c.take sampleSize)) := by
        unfold calculate_quick_hash
        rw [if_pos hqok, hfc]
      have hansOk : ∀ a ∈ lookupB bks (X (c.take sampleSize)),
          AnchOk X R c (X (c.take sampleSize)) a := by
        intro a haa
        obtain ⟨p, hp, hpk, hap⟩ :=
          lookupB_mem_key bks (X (c.take sampleSize)) a haa
        rw [← hpk]
        exact hbk p hp a hap
      cases A with
      | none =>
        -- the class has no anchor yet: f becomes it, nothing is emitted
        have hfree : ∀ a ∈ lookupB bks (X (c.take sampleSize)),
            ¬ a.file.content = c := by
          intro a haa
          have := List.filter_eq_nil_iff.mp hch a haa
          simpa using this
        have hr := pSM_class_miss X R c f hRf
          (lookupB bks (X (c.take sampleSize)))
          hfree (fun a haa => (hansOk a haa).1)
          (fun a haa => (hansOk a haa).2.1)
          (fun a haa => (hansOk a haa).2.2.1)
        have hr2 : (pureStreamMatch R
            (lookupB bks (X (c.take sampleSize))) f).2 = none := by
          rw [hr]
        have hr1 : (pureStreamMatch R
            (lookupB bks (X (c.take sampleSize))) f).1
            = (lookupB bks (X (c.take sampleSize))).map (fillA R) := by
          rw [hr]
        have hpans : pAns R (lookupB bks (X (c.take sampleSize))) f
            = (lookupB bks (X (c.take sampleSize))).map (fillA R)
              ++ [⟨f, none⟩] := by
          rw [pAns_none R _ f hr2, hr1]
        rw [pSG_step _ R f t bks (X (c.take sampleSize)) hq, hpans, hr2]
        simp only [Option.toList_none, List.nil_append]
        have hbk2 : ∀ p ∈ storeB bks (X (c.take sampleSize))
            ((lookupB bks (X (c.take sampleSize))).map (fillA R)
              ++ [⟨f, none⟩]),
            ∀ a ∈ p.2, AnchOk X R c p.1 a := by
          apply storeB_anchOk X R c bks _ _ hbk
          intro a haa
          rcases List.mem_append.mp haa with haa | haa
          · obtain ⟨a0, ha0, he⟩ := List.mem_map.mp haa
            rw [← he]
            exact fillA_anchOk X R c _ a0 (hansOk a0 ha0)
          · have : a = (⟨f, none⟩ : Anchor) := by simpa using haa
            subst this
            exact ⟨hsh f hf, Or.inl rfl, hinj f hf,
              fun _ => ⟨hRf, rfl⟩⟩
        have hch2 : CChar X c (storeB bks (X (c.take sampleSize))
            ((lookupB bks (X (c.take sampleSize))).map (fillA R)
              ++ [⟨f, none⟩])) (some f) := by
          refine ⟨none, ?_, Or.inl rfl⟩
          rw [lookupB_storeB, if_pos rfl, List.filter_append,
            filter_fillA, hch]
          simp [hfc]
        rw [ih _ (some f) hshT hinjT hclsT hbk2 hch2,
          List.filter_cons, if_pos (by simp [hfc])]
        rfl
      | some g =>
        -- the class anchor g is matched: one pair out, winner replaces g
        obtain ⟨fu, hflt, hfu⟩ := hch
        have hgmem : (⟨g, fu⟩ : Anchor) ∈
            lookupB bks (X (c.take sampleSize)) := by
          have : (⟨g, fu⟩ : Anchor) ∈
              (lookupB bks (X (c.take sampleSize))).filter
                (fun a => decide (a.file.content = c)) := by
            rw [hflt]
            exact List.mem_cons_self _ _
          exact List.mem_of_mem_filter this
        have hgc : g.content = c := by
          have : (⟨g, fu⟩ : Anchor) ∈
              (lookupB bks (X (c.take sampleSize))).filter
                (fun a => decide (a.file.content = c)) := by
            rw [hflt]
            exact List.mem_cons_self _ _
          simpa using List.of_mem_filter this
        have hRg : R g = some (X c) := ((hansOk _ hgmem).2.2.2 hgc).1
        obtain ⟨l1, l2, hdec, hl1free, hl2flt⟩ :=
          filter_singleton_decomp _ _ _ hflt
        have hl1sub : ∀ a ∈ l1, a ∈ lookupB bks (X (c.take sampleSize)) := by
          intro a haa
          rw [hdec]
          exact List.mem_append.mpr (Or.inl haa)
        have hl2sub : ∀ a ∈ l2, a ∈ lookupB bks (X (c.take sampleSize)) := by
          intro a haa
          rw [hdec]
          exact List.mem_append.mpr (Or.inr (List.mem_cons_of_mem _ haa))
        have hl1free2 : ∀ a ∈ l1, ¬ a.file.content = c := by
          intro a haa
          have := hl1free a haa
          simpa using this
        have hr := pSM_class_hit X R c f hRf l1 g fu l2 hl1free2
          (fun a haa => (hansOk a (hl1sub a haa)).1)
          (fun a haa => (hansOk a (hl1sub a haa)).2.1)
          (fun a haa => (hansOk a (hl1sub a haa)).2.2.1)
          hRg hfu
        have hr0 : pureStreamMatch R
            (lookupB bks (X (c.take sampleSize))) f
            = (l1.map (fillA R)
                ++ ⟨(anchorCompare f g).2, some (X c)⟩ :: l2,
               some (anchorCompare f g).1) := by
          rw [hdec]
          exact hr
        have hr2 : (pureStreamMatch R
            (lookupB bks (X (c.take sampleSize))) f).2
            = some (anchorCompare f g).1 := by
          rw [hr0]
        have hr1 : (pureStreamMatch R
            (lookupB bks (X (c.take sampleSize))) f).1
            = l1.map (fillA R)
              ++ ⟨(anchorCompare f g).2, some (X c)⟩ :: l2 := by
          rw [hr0]
        have hpans : pAns R (lookupB bks (X (c.take sampleSize))) f
            = l1.map (fillA R)
              ++ ⟨(anchorCompare f g).2, some (X c)⟩ :: l2 := by
          rw [pAns_some R _ f _ hr2, hr1]
        rw [pSG_step _ R f t bks (X (c.take sampleSize)) hq, hpans, hr2]
        simp only [Option.toList_some]
        have hwcases := anchorCompare_snd_cases f g
        have hwc : (anchorCompare f g).2.content = c := by
          rcases hwcases with h | h <;> rw [h]
          · exact hfc
          · exact hgc
        have hRw : R (anchorCompare f g).2 = some (X c) := by
          rcases hwcases with h | h <;> rw [h]
          · exact hRf
          · exact hRg
        have hwinj : X (anchorCompare f g).2.content = X c →
            (anchorCompare f g).2.content = c := fun _ => hwc
        have hwsh : R (anchorCompare f g).2 = none ∨
            R (anchorCompare f g).2 = some (X (anchorCompare f g).2.content) := by
          right
          rw [hRw, hwc]
        have hbk2 : ∀ p ∈ storeB bks (X (c.take sampleSize))
            (l1.map (fillA R)
              ++ ⟨(anchorCompare f g).2, some (X c)⟩ :: l2),
            ∀ a ∈ p.2, AnchOk X R c p.1 a := by
          apply storeB_anchOk X R c bks _ _ hbk
          intro a haa
          rcases List.mem_append.mp haa with haa | haa
          · obtain ⟨a0, ha0, he⟩ := List.mem_map.mp haa
            rw [← he]
            exact fillA_anchOk X R c _ a0 (hansOk a0 (hl1sub a0 ha0))
          · rcases List.mem_cons.mp haa with haa | haa
            · subst haa
              exact ⟨hwsh, Or.inr hRw.symm, hwinj, fun _ => ⟨hRw, rfl⟩⟩
            · exact hansOk a (hl2sub a haa)
        have hch2 : CChar X c (storeB bks (X (c.take sampleSize))
            (l1.map (fillA R)
              ++ ⟨(anchorCompare f g).2, some (X c)⟩ :: l2))
            (some (anchorCompare f g).2) := by
          refine ⟨some (X c), ?_, Or.inr rfl⟩
          rw [lookupB_storeB, if_pos rfl, List.filter_append, filter_fillA]
          have hl1f : l1.filter (fun a => decide (a.file.content = c))
              = [] := by
            apply List.filter_eq_nil_iff.mpr
            intro a haa
            simp [hl1free2 a haa]
          rw [hl1f, List.filter_cons, if_pos (by simp [hwc]), hl2flt]
          rfl
        have horig : (anchorCompare f g).1.2.content = c := by
          rcases anchorCompare_orig_cases f g with h | h <;> rw [h]
          · exact hfc
          · exact hgc
        rw [List.singleton_append, List.filter_cons,
          if_pos (by simp [horig]),
          ih _ (some (anchorCompare f g).2) hshT hinjT hclsT hbk2 hch2,
          List.filter_cons, if_pos (by simp [hfc])]
        rfl
    · -- a file outside the class is processed
      cases hq : calculate_quick_hash X f with
      | none =>
        rw [pSG_skip _ R f t bks hq,
          ih bks A hshT hinjT hclsT hbk hch,
          List.filter_cons, if_neg (by simp [hfc])]
      | some q =>
        have hansOk : ∀ a ∈ lookupB bks q, AnchOk X R c q a := by
          intro a haa
          obtain ⟨p, hp, hpk, hap⟩ := lookupB_mem_key bks q a haa
          rw [← hpk]
          exact hbk p hp a hap
        obtain ⟨hp1, hp2, hp3⟩ := pSM_preserve X R c q f (hsh f hf)
          (hinj f hf) hfc (lookupB bks q) hansOk
        rw [pSG_step _ R f t bks q hq]
        have hans2Ok : ∀ a ∈ pAns R (lookupB bks q) f,
            AnchOk X R c q a := by
          intro a haa
          cases hr2 : (pureStreamMatch R (lookupB bks q) f).2 with
          | some p0 =>
            rw [pAns_some R _ f p0 hr2] at haa
            exact hp1 a haa
          | none =>
            rw [pAns_none R _ f hr2] at haa
            rcases List.mem_append.mp haa with haa | haa
            · exact hp1 a haa
            · have : a = (⟨f, none⟩ : Anchor) := by simpa using haa
              subst this
              exact ⟨hsh f hf, Or.inl rfl, hinj f hf,
                fun hcon => absurd hcon hfc⟩
        have hbk2 : ∀ p ∈ storeB bks q (pAns R (lookupB bks q) f),
            ∀ a ∈ p.2, AnchOk X R c p.1 a :=
          storeB_anchOk X R c bks q _ hbk hans2Ok
        have hans2file : ((pAns R (lookupB bks q) f).filter
              (fun a => decide (a.file.content = c))).map Anchor.file
            = ((lookupB bks q).filter
                (fun a => decide (a.file.content = c))).map Anchor.file := by
          cases hr2 : (pureStreamMatch R (lookupB bks q) f).2 with
          | some p0 =>
            rw [pAns_some R _ f p0 hr2]
            exact hp3
          | none =>
            rw [pAns_none R _ f hr2, List.filter_append]
            have hone : ([(⟨f, none⟩ : Anchor)]).filter
                (fun a => decide (a.file.content = c)) = [] := by
              simp [hfc]
            rw [hone, List.append_nil]
            exact hp3
        have hch2 : CChar X c
            (storeB bks q (pAns R (lookupB bks q) f)) A := by
          by_cases hqq : q = X (c.take sampleSize)
          · cases A with
            | none =>
              show (lookupB _ (X (c.take sampleSize))).filter _ = []
              rw [lookupB_storeB, if_pos hqq]
              have hch0 : ((lookupB bks q).filter
                  (fun a => decide (a.file.content = c))) = [] := by
                rw [hqq]
                exact hch
              apply List.map_eq_nil_iff.mp
              rw [hans2file, hch0]
              rfl
            | some g =>
              obtain ⟨fu, hflt, hfu⟩ := hch
              have hch0 : ((lookupB bks q).filter
                  (fun a => decide (a.file.content = c))) = [⟨g, fu⟩] := by
                rw [hqq]
                exact hflt
              have hgfile : ((pAns R (lookupB bks q) f).filter
                    (fun a => decide (a.file.content = c))).map Anchor.file
                  = [g] := by
                rw [hans2file, hch0]
                rfl
              obtain ⟨fu2, hsing⟩ := map_file_singleton g _ hgfile
              refine ⟨fu2, ?_, ?_⟩
              · show (lookupB _ (X (c.take sampleSize))).filter _ = _
                rw [lookupB_storeB, if_pos hqq]
                exact hsing
              · -- the new full hash obeys the anchor invariant
                have hgc : g.content = c := by
                  have : (⟨g, fu⟩ : Anchor) ∈
                      (lookupB bks q).filter
                        (fun a => decide (a.file.content = c)) := by
                    rw [hch0]
                    exact List.mem_cons_self _ _
                  simpa using List.of_mem_filter this
                have hmem2 : (⟨g, fu2⟩ : Anchor) ∈ pAns R (lookupB bks q) f := by
                  apply List.mem_of_mem_filter (p := fun a =>
                    decide (a.file.content = c))
                  rw [hsing]
                  exact List.mem_cons_self _ _
                obtain ⟨_, hfl2, _, hcl2⟩ := hans2Ok _ hmem2
                rcases hfl2 with hfl2 | hfl2
                · exact Or.inl hfl2
                · right
                  have hfr : fu2 = R g := hfl2
                  rw [hfr]
                  exact (hcl2 hgc).1
          · have hlk : lookupB (storeB bks q (pAns R (lookupB bks q) f))
                (X (c.take sampleSize))
                = lookupB bks (X (c.take sampleSize)) := by
              rw [lookupB_storeB, if_neg hqq]
            cases A with
            | none =>
              show (lookupB _ (X (c.take sampleSize))).filter _ = []
              rw [hlk]
              exact hch
            | some g =>
              obtain ⟨fu, hflt, hfu⟩ := hch
              refine ⟨fu, ?_, hfu⟩
              show (lookupB _ (X (c.take sampleSize))).filter _ = _
              rw [hlk]
              exact hflt
        rw [List.filter_append,
          ih _ A hshT hinjT hclsT hbk2 hch2]
        have hemp : ((pureStreamMatch R (lookupB bks q) f).2.toList).filter
            (fun p => decide (p.2.content = c)) = [] := by
          cases hr2 : (pureStreamMatch R (lookupB bks q) f).2 with
          | none => rfl
          | some p0 =>
            have := hp2 p0 hr2
            simp [this]
        rw [hemp, List.nil_append, List.filter_cons,
          if_neg (by simp [hfc])]

/-- Filtered view of the batch scanner for one content class `c`: its
pairs whose original has content `c` are the evolving-anchor pairs of the
class members, in candidate order. -/
theorem find_duplicates_class (X : List Nat → Nat) (ext : Option PStr)
    (minSize : Nat) (walk : List FSFile) (c0 : Cache) (c : List Nat)
    (hnp : PathsNodup walk) (hcc : CacheConsistent X walk c0)
    (hsm : ∀ f ∈ candidateFiles ext minSize walk, f.size = f.content.length)
    (hinjc : ∀ f ∈ candidateFiles ext minSize walk,
      X f.content = X c → f.content = c)
    (hcls : ∀ f ∈ candidateFiles ext minSize walk, f.content = c →
      f.quickOk = true ∧ f.mtimeOk = true ∧ f.fullOk = true) :
    ((find_duplicates X ext minSize walk c0).1).filter
        (fun p => decide (p.2.content = c))
      = classPairs none ((candidateFiles ext minSize walk).filter
          (fun f => decide (f.content = c))) := by
  rw [(find_duplicates_bridge X ext minSize walk c0 hnp).1,
    candidateFiles_eq]
  apply pureScanSizes_class
  · exact group_files_keys_nodup ext minSize walk [] (by simp)
  · exact group_files_keyed ext minSize walk []
      (by intro g hg; simp at hg)
  · intro g hg hlen f hf
    have hmemc : f ∈ candidateFiles ext minSize walk := by
      rw [candidateFiles_eq]
      exact candGo_group_mem _ g hg hlen f hf
    exact hsm f hmemc
  · intro g hg hlen f hf
    exact fhR_shape X walk c0 hcc f
      (group_files_by_size_mem ext minSize walk g hg f hf)
  · intro g hg hlen f hf hfc
    have hmemc : f ∈ candidateFiles ext minSize walk := by
      rw [candidateFiles_eq]
      exact candGo_group_mem _ g hg hlen f hf
    obtain ⟨hq, hm, hfo⟩ := hcls f hmemc hfc
    exact ⟨fhR_success X walk c0 hcc f
      (group_files_by_size_mem ext minSize walk g hg f hf) hm hfo, hq⟩
  · intro g hg hlen f hf
    have hmemc : f ∈ candidateFiles ext minSize walk := by
      rw [candidateFiles_eq]
      exact candGo_group_mem _ g hg hlen f hf
    exact hinjc f hmemc

/-- Filtered view of the streaming scanner for one content class `c`. -/
theorem stream_class (X : List Nat → Nat) (ext : Option PStr)
    (minSize : Nat) (walk : List FSFile) (c0 : Cache) (c : List Nat)
    (hnp : PathsNodup walk) (hcc : CacheConsistent X walk c0)
    (hinjc : ∀ f ∈ candidateFiles ext minSize walk,
      X f.content = X c → f.content = c)
    (hcls : ∀ f ∈ candidateFiles ext minSize walk, f.content = c →
      f.quickOk = true ∧ f.mtimeOk = true ∧ f.fullOk = true) :
    (streamPairs (find_duplicates_stream X ext minSize walk c0
        (fun _ => false)).1).filter (fun p => decide (p.2.content = c))
      = classPairs none ((candidateFiles ext minSize walk).filter
          (fun f => decide (f.content = c))) := by
  rw [find_duplicates_stream_pairs_bridge X ext minSize walk c0 hnp]
  apply pureStreamGo_class
  · intro f hf
    exact fhR_shape X walk c0 hcc f
      (candidateFiles_mem ext minSize walk f hf)
  · exact hinjc
  · intro f hf hfc
    obtain ⟨hq, hm, hfo⟩ := hcls f hf hfc
    exact ⟨hq, fhR_success X walk c0 hcc f
      (candidateFiles_mem ext minSize walk f hf) hm hfo⟩
  · intro p hp
    simp at hp
  · show (lookupB [] (X (c.take sampleSize))).filter
        (fun a => decide (a.file.content = c)) = []
    rfl

/-! ## Membership of emitted pairs -/

theorem pureScanFull_mem (R : FSFile → Option Nat) (P : FSFile → Prop) :
    ∀ (l : List FSFile) (fh : List (Nat × FSFile)),
    (∀ f ∈ l, P f) → (∀ e ∈ fh, P e.2) →
    ∀ pr ∈ pureScanFull R l fh, P pr.1 ∧ P pr.2 := by
  intro l
  induction l with
  | nil =>
    intro fh _ _ pr hpr
    simp [pureScanFull] at hpr
  | cons f t ih =>
    intro fh hl hfh pr hpr
    have hPf : P f := hl f (List.mem_cons_self _ _)
    have hlT : ∀ x ∈ t, P x :=
      fun x hx => hl x (List.mem_cons_of_mem _ hx)
    cases hr : R f with
    | none =>
      simp only [pureScanFull, hr] at hpr
      exact ih fh hlT hfh pr hpr
    | some h =>
      cases hla : lookupA fh h with
      | some a =>
        simp only [pureScanFull, hr, hla] at hpr
        have hPa : P a := hfh (h, a) (lookupA_mem fh h a hla)
        rcases List.mem_cons.mp hpr with hpr | hpr
        · subst hpr
          rcases anchorCompare_cases f a with hca | hca <;> rw [hca]
          · exact ⟨hPa, hPf⟩
          · exact ⟨hPf, hPa⟩
        · refine ih _ hlT ?_ pr hpr
          apply storeA_inv (fun e => P e.2) fh h _ hfh
          rcases anchorCompare_snd_cases f a with hca | hca <;> rw [hca]
          · exact hPf
          · exact hPa
      | none =>
        simp only [pureScanFull, hr, hla] at hpr
        exact ih _ hlT (storeA_inv (fun e => P e.2) fh h f hfh hPf) pr hpr

theorem pureScanQuick_mem (R : FSFile → Option Nat) (P : FSFile → Prop) :
    ∀ (gs : List (Nat × List FSFile)),
    (∀ g ∈ gs, ∀ f ∈ g.2, P f) →
    ∀ pr ∈ pureScanQuick R gs, P pr.1 ∧ P pr.2 := by
  intro gs
  induction gs with
  | nil =>
    intro _ pr hpr
    simp [pureScanQuick] at hpr
  | cons g t ih =>
    intro hgs pr hpr
    obtain ⟨k, fl⟩ := g
    have hT : ∀ g' ∈ t, ∀ f ∈ g'.2, P f :=
      fun g' hg' => hgs g' (List.mem_cons_of_mem _ hg')
    by_cases hlen : fl.length < 2
    · simp only [pureScanQuick, if_pos hlen] at hpr
      exact ih hT pr hpr
    · simp only [pureScanQuick, if_neg hlen] at hpr
      rcases List.mem_append.mp hpr with hpr | hpr
      · exact pureScanFull_mem R P fl []
          (fun f hf => hgs (k, fl) (List.mem_cons_self _ _) f hf)
          (by intro e he; simp at he) pr hpr
      · exact ih hT pr hpr

theorem pureScanSizes_mem (Q R : FSFile → Option Nat) (P : FSFile → Prop) :
    ∀ (gs : List (Nat × List FSFile)),
    (∀ g ∈ gs, 1 < g.2.length → ∀ f ∈ g.2, P f) →
    ∀ pr ∈ pureScanSizes Q R gs, P pr.1 ∧ P pr.2 := by
  intro gs
  induction gs with
  | nil =>
    intro _ pr hpr
    simp [pureScanSizes] at hpr
  | cons g t ih =>
    intro hgs pr hpr
    obtain ⟨s, files⟩ := g
    have hT : ∀ g' ∈ t, 1 < g'.2.length → ∀ f ∈ g'.2, P f :=
      fun g' hg' => hgs g' (List.mem_cons_of_mem _ hg')
    by_cases hlen : files.length < 2
    · simp only [pureScanSizes, if_pos hlen] at hpr
      exact ih hT pr hpr
    · simp only [pureScanSizes, if_neg hlen] at hpr
      rcases List.mem_append.mp hpr with hpr | hpr
      · refine pureScanQuick_mem R P (quickGroupsR Q files) ?_ pr hpr
        intro g' hg' f hf
        exact hgs (s, files) (List.mem_cons_self _ _)
          (show 1 < files.length by omega)
          f (quickGroupsR_mem Q files g' hg' f hf)
      · exact ih hT pr hpr

theorem pureStreamMatch_pair_mem (R : FSFile → Option Nat)
    (P : FSFile → Prop) (f : FSFile) (hf : P f) :
    ∀ (ans : List Anchor), (∀ a ∈ ans, P a.file) →
    ∀ pr, (pureStreamMatch R ans f).2 = some pr → P pr.1 ∧ P pr.2 := by
  intro ans
  induction ans with
  | nil =>
    intro _ pr hpr
    simp [pureStreamMatch] at hpr
  | cons a t ih =>
    intro hans pr hpr
    have hPa : P a.file := hans a (List.mem_cons_self _ _)
    by_cases hm : R f = (match a.full with
      | some hh => some hh
      | none => R a.file)
    · rw [pSM_step R a t f _ rfl, if_pos hm] at hpr
      have hpe : some (anchorCompare f a.file).1 = some pr := hpr
      have hpe2 : pr = (anchorCompare f a.file).1 :=
        (Option.some.inj hpe).symm
      subst hpe2
      rcases anchorCompare_cases f a.file with hca | hca <;> rw [hca]
      · exact ⟨hPa, hf⟩
      · exact ⟨hf, hPa⟩
    · rw [pSM_step R a t f _ rfl, if_neg hm] at hpr
      have hpe : (pureStreamMatch R t f).2 = some pr := hpr
      exact ih (fun b hb => hans b (List.mem_cons_of_mem _ hb)) pr hpe

theorem pureStreamGo_mem (Q R : FSFile → Option Nat) (P : FSFile → Prop) :
    ∀ (l : List FSFile) (bks : Buckets),
    (∀ f ∈ l, P f) → (∀ bk ∈ bks, ∀ a ∈ bk.2, P a.file) →
    ∀ pr ∈ pureStreamGo Q R l bks, P pr.1 ∧ P pr.2 := by
  intro l
  induction l with
  | nil =>
    intro bks _ _ pr hpr
    simp [pureStreamGo] at hpr
  | cons f t ih =>
    intro bks hl hbks pr hpr
    have hPf : P f := hl f (List.mem_cons_self _ _)
    have hlT : ∀ x ∈ t, P x :=
      fun x hx => hl x (List.mem_cons_of_mem _ hx)
    cases hq : Q f with
    | none =>
      rw [pSG_skip Q R f t bks hq] at hpr
      exact ih bks hlT hbks pr hpr
    | some q =>
      rw [pSG_step Q R f t bks q hq] at hpr
      have hansP : ∀ a ∈ lookupB bks q, P a.file :=
        lookupB_files P bks hbks q
      rcases List.mem_append.mp hpr with hpr | hpr
      · cases hr2 : (pureStreamMatch R (lookupB bks q) f).2 with
        | none =>
          rw [hr2] at hpr
          simp at hpr
        | some p0 =>
          rw [hr2] at hpr
          have hpe : pr = p0 := by simpa using hpr
          subst hpe
          exact pureStreamMatch_pair_mem R P f hPf (lookupB bks q)
            hansP pr hr2
      · refine ih _ hlT ?_ pr hpr
        apply storeB_files P bks q _ hbks
        intro a ha
        cases hr2 : (pureStreamMatch R (lookupB bks q) f).2 with
        | some p0 =>
          rw [pAns_some R _ f p0 hr2] at ha
          exact pureStreamMatch_files P R f hPf (lookupB bks q) hansP a ha
        | none =>
          rw [pAns_none R _ f hr2] at ha
          rcases List.mem_append.mp ha with ha | ha
          · exact pureStreamMatch_files P R f hPf (lookupB bks q)
              hansP a ha
          · have hae : a = (⟨f, none⟩ : Anchor) := by simpa using ha
            subst hae
            exact hPf

/-! ## Claim C4 -/

/-- C4: for any content class `c` with at least two candidate members (the
class members' hash computations all succeeding, the hash not colliding
into the class, cached entries truthful, sizes honest, paths distinct),
both scanners emit for that class exactly the evolving-anchor pairs of the
class members — each pair's original is the current anchor of the class —
and the number of those pairs is exactly the number of class members minus
one, not a fully-connected pairing. -/
theorem C4_content_class_pairs (X : List Nat → Nat) (ext : Option PStr)
    (minSize : Nat) (walk : List FSFile) (c0 : Cache) (c : List Nat)
    (hnp : PathsNodup walk) (hcc : CacheConsistent X walk c0)
    (hsm : ∀ f ∈ candidateFiles ext minSize walk, f.size = f.content.length)
    (hinjc : ∀ f ∈ candidateFiles ext minSize walk,
      X f.content = X c → f.content = c)
    (hcls : ∀ f ∈ candidateFiles ext minSize walk, f.content = c →
      f.quickOk = true ∧ f.mtimeOk = true ∧ f.fullOk = true)
    (hN : 2 ≤ ((candidateFiles ext minSize walk).filter
      (fun f => decide (f.content = c))).length) :
    ((find_duplicates X ext minSize walk c0).1).filter
        (fun p => decide (p.2.content = c))
      = classPairs none ((candidateFiles ext minSize walk).filter
          (fun f => decide (f.content = c)))
    ∧ (streamPairs (find_duplicates_stream X ext minSize walk c0
        (fun _ => false)).1).filter (fun p => decide (p.2.content = c))
      = classPairs none ((candidateFiles ext minSize walk).filter
          (fun f => decide (f.content = c)))
    ∧ (((find_duplicates X ext minSize walk c0).1).filter
        (fun p => decide (p.2.content = c))).length
      = ((candidateFiles ext minSize walk).filter
          (fun f => decide (f.content = c))).length - 1 := by
  have hb := find_duplicates_class X ext minSize walk c0 c hnp hcc hsm
    hinjc hcls
  have hs := stream_class X ext minSize walk c0 c hnp hcc hinjc hcls
  refine ⟨hb, hs, ?_⟩
  rw [hb, classPairs_none_length]

/-- C4 at a concrete input: `wa` and `wb` share content `[88]`, `wc` has
content `[89]`; the class `[88]` has exactly two members and yields one
pair. -/
theorem C4_content_class_pairs_witness :
    2 ≤ ((candidateFiles none 0 [wa, wb, wc]).filter
      (fun f => decide (f.content = [88]))).length
    ∧ (((find_duplicates Xc none 0 [wa, wb, wc] []).1).filter
        (fun p => decide (p.2.content = [88]))
      = classPairs none ((candidateFiles none 0 [wa, wb, wc]).filter
          (fun f => decide (f.content = [88])))
    ∧ (streamPairs (find_duplicates_stream Xc none 0 [wa, wb, wc] []
        (fun _ => false)).1).filter (fun p => decide (p.2.content = [88]))
      = classPairs none ((candidateFiles none 0 [wa, wb, wc]).filter
          (fun f => decide (f.content = [88])))
    ∧ (((find_duplicates Xc none 0 [wa, wb, wc] []).1).filter
        (fun p => decide (p.2.content = [88]))).length
      = ((candidateFiles none 0 [wa, wb, wc]).filter
          (fun f => decide (f.content = [88]))).length - 1) :=
  ⟨by decide,
   C4_content_class_pairs Xc none 0 [wa, wb, wc] [] [88]
    (by unfold PathsNodup; decide) (by intro f hf m h hl; unfold lookupC at hl; simp at hl)
    (by decide) (by decide) (by decide) (by decide)⟩

theorem count_zero_of_not_mem {α : Type} [DecidableEq α] (a : α) :
    ∀ (l : List α), a ∉ l → l.count a = 0 := by
  intro l
  induction l with
  | nil => intro _; rfl
  | cons x t ih =>
    intro h
    have hxa : ¬ a = x := fun he => h (he ▸ List.mem_cons_self x t)
    rw [List.count_cons, ih (fun hm => h (List.mem_cons_of_mem _ hm))]
    simp [hxa]
    exact fun he => hxa he.symm

theorem count_filter_self {α : Type} [DecidableEq α] (p : α → Bool)
    (a : α) (h : p a = true) :
    ∀ (l : List α), (l.filter p).count a = l.count a := by
  intro l
  induction l with
  | nil => rfl
  | cons x t ih =>
    by_cases hx : p x = true
    · rw [List.filter_cons, if_pos (by simpa using hx), List.count_cons,
        List.count_cons, ih]
    · have hxa : ¬ x = a := fun he => hx (he ▸ h)
      rw [List.filter_cons, if_neg (by simpa using hx), ih,
        List.count_cons]
      simp [hxa]

/-! ## Claim C10 -/

/-- C10 fails as stated: on two same-size candidates whose full-content
reads both fail, the batch scanner emits no pair (it skips files with
failed hashes) while the stream emits `(g2, g1)` (its `current_full ==
candidate["full"]` comparison treats two `None`s as equal), so the two
scanners do not produce the same pairs. -/
theorem C10_batch_stream_counterexample :
    (find_duplicates Xc none 0 [g1, g2] []).1 = []
    ∧ streamPairs (find_duplicates_stream Xc none 0 [g1, g2] []
        (fun _ => false)).1 = [(g2, g1)] := by
  decide

/-- C10 (amended): when every candidate's quick and full hash computation
succeeds (readable files, readable mtimes), the hash does not collide on
candidate contents, trusted cache entries are truthful, sizes are honest
and paths distinct, the batch scanner and the streaming scanner (stop
predicate never true) emit the same duplicate pairs up to order. -/
theorem C10_batch_stream_amended (X : List Nat → Nat) (ext : Option PStr)
    (minSize : Nat) (walk : List FSFile) (c0 : Cache)
    (hnp : PathsNodup walk) (hcc : CacheConsistent X walk c0)
    (hsm : ∀ f ∈ candidateFiles ext minSize walk, f.size = f.content.length)
    (hinj : ∀ f ∈ candidateFiles ext minSize walk,
      ∀ g ∈ candidateFiles ext minSize walk,
      X f.content = X g.content → f.content = g.content)
    (hok : ∀ f ∈ candidateFiles ext minSize walk,
      f.quickOk = true ∧ f.mtimeOk = true ∧ f.fullOk = true) :
    ((find_duplicates X ext minSize walk c0).1).Perm
      (streamPairs (find_duplicates_stream X ext minSize walk c0
        (fun _ => false)).1) := by
  apply List.perm_iff_count.mpr
  intro pr
  by_cases hmem : pr ∈ (find_duplicates X ext minSize walk c0).1
      ∨ pr ∈ streamPairs (find_duplicates_stream X ext minSize walk c0
          (fun _ => false)).1
  · have horig : pr.2 ∈ candidateFiles ext minSize walk := by
      rcases hmem with hmem | hmem
      · rw [(find_duplicates_bridge X ext minSize walk c0 hnp).1] at hmem
        refine (pureScanSizes_mem _ _
          (fun x => x ∈ candidateFiles ext minSize walk)
          (group_files_by_size ext minSize walk) ?_ pr hmem).2
        intro g hg hlen f hf
        rw [candidateFiles_eq]
        exact candGo_group_mem _ g hg hlen f hf
      · rw [find_duplicates_stream_pairs_bridge X ext minSize walk c0
          hnp] at hmem
        exact (pureStreamGo_mem _ _
          (fun x => x ∈ candidateFiles ext minSize walk)
          (candidateFiles ext minSize walk) [] (fun f hf => hf)
          (by intro bk hbk; simp at hbk) pr hmem).2
    have hinjc : ∀ f ∈ candidateFiles ext minSize walk,
        X f.content = X pr.2.content → f.content = pr.2.content :=
      fun f hf hx => hinj f hf pr.2 horig hx
    have hcls : ∀ f ∈ candidateFiles ext minSize walk,
        f.content = pr.2.content →
        f.quickOk = true ∧ f.mtimeOk = true ∧ f.fullOk = true :=
      fun f hf _ => hok f hf
    have hb := find_duplicates_class X ext minSize walk c0 pr.2.content
      hnp hcc hsm hinjc hcls
    have hs := stream_class X ext minSize walk c0 pr.2.content hnp hcc
      hinjc hcls
    have h1 := count_filter_self (fun p : FSFile × FSFile =>
        decide (p.2.content = pr.2.content)) pr (by simp)
      (find_duplicates X ext minSize walk c0).1
    have h2 := count_filter_self (fun p : FSFile × FSFile =>
        decide (p.2.content = pr.2.content)) pr (by simp)
      (streamPairs (find_duplicates_stream X ext minSize walk c0
        (fun _ => false)).1)
    rw [← h1, ← h2, hb, hs]
  · push_neg at hmem
    have hz1 := count_zero_of_not_mem pr
      (find_duplicates X ext minSize walk c0).1 hmem.1
    have hz2 := count_zero_of_not_mem pr
      (streamPairs (find_duplicates_stream X ext minSize walk c0
        (fun _ => false)).1) hmem.2
    rw [hz1, hz2]

/-- C10 amended statement at a concrete input: three readable candidates,
two of them duplicates. -/
theorem C10_batch_stream_amended_witness :
    PathsNodup [wa, wb, wc]
    ∧ ((find_duplicates Xc none 0 [wa, wb, wc] []).1).Perm
      (streamPairs (find_duplicates_stream Xc none 0 [wa, wb, wc] []
        (fun _ => false)).1) :=
  ⟨by unfold PathsNodup; decide,
   C10_batch_stream_amended Xc none 0 [wa, wb, wc] []
    (by unfold PathsNodup; decide)
    (by intro f hf m h hl; unfold lookupC at hl; simp at hl)
    (by decide) (by decide) (by decide)⟩

end DupDeducer
